import Mathlib

set_option maxHeartbeats 2000000
set_option maxRecDepth 20000

/-
Formal model of the Constraint-Driven Text Optimizer of blog_cheatkey
(backend/content/services/optimizer.py, class ContentOptimizer).

Text is modelled as a list of characters (`Text := List Char`); Python string
operations are translated into executable structural recursions on that list.
Scanning functions that advance by more than one character per step take an
explicit fuel argument initialised with the length of the scanned text, so that
every definition is a computable structural recursion.  External collaborators
(the Okt tokenizer, the Anthropic client, the substitution generator, the
database and the random source) are supplied as record fields of an
environment, mirroring §2/§6 of the specification, which treats them as
pluggable capabilities.
-/

abbrev Text := List Char

/-- The Hangul syllable block `[가-힣]` of the source's regexes (U+AC00..U+D7A3). -/
def isHangul (c : Char) : Bool := 0xAC00 ≤ c.toNat && c.toNat ≤ 0xD7A3

/-- Python's `\w` over the character repertoire this code base uses
(ASCII alphanumerics, underscore, and Hangul syllables). -/
def isWordChar (c : Char) : Bool := c.isAlphanum || c == '_' || isHangul c

/-- Python's `\s` over the whitespace characters this code base uses. -/
def pyIsSpace (c : Char) : Bool :=
  c == ' ' || c == '\t' || c == '\n' || c == '\r' || c == '\x0b' || c == '\x0c'

/-- Case split on a natural number that returns the same number in both
branches: forces an accumulator to a numeral during evaluation, so that
accumulating recursions over long texts do not build towers of thunks. -/
def natCase (n : Nat) (k : Nat → α) : α :=
  match n with
  | 0 => k 0
  | m + 1 => k (m + 1)

theorem natCase_eq (n : Nat) (k : Nat → α) : natCase n k = k n := by
  cases n <;> rfl

/-- Tail-recursive list length, used to initialise fuel counters so that long
texts evaluate iteratively. -/
def tlenAux : Nat → List α → Nat
  | acc, [] => acc
  | acc, _ :: rest => natCase (acc + 1) (fun a => tlenAux a rest)

def tlen (t : List α) : Nat := tlenAux 0 t

theorem tlenAux_eq (acc : Nat) (t : List α) : tlenAux acc t = acc + t.length := by
  induction t generalizing acc with
  | nil => simp [tlenAux]
  | cons c rest ih => simp [tlenAux, natCase_eq, ih]; omega

theorem tlen_eq (t : List α) : tlen t = t.length := by
  simp [tlen, tlenAux_eq]

/-- `len(content.replace(" ", ""))`: the length after removing space characters
(U+0020) only — other whitespace such as newlines is kept and counted.
Written as an accumulating count so that long texts evaluate iteratively. -/
def charCountAux : Nat → Text → Nat
  | acc, [] => acc
  | acc, c :: rest =>
    natCase (if c == ' ' then acc else acc + 1) (fun a => charCountAux a rest)

def charCount (t : Text) : Nat := charCountAux 0 t

theorem charCountAux_eq (acc : Nat) (t : Text) :
    charCountAux acc t = acc + (t.filter (fun c => c != ' ')).length := by
  induction t generalizing acc with
  | nil => simp [charCountAux]
  | cons c rest ih =>
    by_cases h : c = ' '
    · simp [charCountAux, natCase_eq, h, ih]
    · simp [charCountAux, natCase_eq, h, ih]; omega

/-- `charCount` agrees with the direct filter-then-length reading. -/
theorem charCount_eq (t : Text) :
    charCount t = (t.filter (fun c => c != ' ')).length := by
  simp [charCount, charCountAux_eq]

/-- Python `str.strip()`: drop leading and trailing whitespace. -/
def pyStrip (t : Text) : Text :=
  ((t.dropWhile pyIsSpace).reverse.dropWhile pyIsSpace).reverse

/-- Python `str.lower()` (ASCII case folding; Hangul is unaffected, as in Python). -/
def lowerT (t : Text) : Text := t.map Char.toLower

/-- `p.strip().startswith(('#', '##', '###'))` — equivalent to testing the first
non-blank character, since every alternative starts with `#`. -/
def isHeading (p : Text) : Bool :=
  match pyStrip p with
  | [] => false
  | c :: _ => c == '#'

/- ------------------------------------------------------------------ -/
/- Exact word counting: `_count_exact_word` (optimizer.py:1363-1380).
   The source builds either the pattern `(?<![가-힣])word(?![가-힣])` (when the
   word contains Hangul) or `\bword\b`, and returns `len(re.findall(...))`.   -/
/- ------------------------------------------------------------------ -/

/-- The lookbehind of the source's pattern: `(?<![가-힣])` for a Hangul-containing
word, otherwise the `\b` boundary against the word's first character.
`prev` is the character immediately before the candidate match
(`none` at the start of the text). -/
def prevBoundaryOk (word : Text) (prev : Option Char) : Bool :=
  if word.any isHangul then
    match prev with
    | none => true
    | some c => !isHangul c
  else
    match word.head?, prev with
    | some w0, none => isWordChar w0
    | some w0, some c => isWordChar w0 != isWordChar c
    | none, _ => true

/-- The lookahead of the source's pattern: `(?![가-힣])` for a Hangul-containing
word, otherwise the `\b` boundary against the word's last character.
`rest` is the text following the candidate match. -/
def nextBoundaryOk (word : Text) (rest : Text) : Bool :=
  if word.any isHangul then
    match rest with
    | [] => true
    | c :: _ => !isHangul c
  else
    match word.getLast?, rest with
    | some wl, [] => isWordChar wl
    | some wl, c :: _ => isWordChar wl != isWordChar c
    | none, _ => true

/-- One left-to-right pass of `re.finditer` for the exact-word pattern.  The
result is the list of text segments lying between successive matches (with the
segment before the first match first and the segment after the last match
last), so the number of matches is the number of segments minus one.  `acc`
holds the reversed current segment; `prev` is the character before the current
position; the fuel is an upper bound on the remaining text length. -/
def scanSegsAux (word : Text) : Nat → Option Char → Text → Text → List Text
  | 0, _, acc, _ => [acc.reverse]
  | _ + 1, _, acc, [] => [acc.reverse]
  | fuel + 1, prev, acc, c :: rest =>
    if word.isPrefixOf (c :: rest) && prevBoundaryOk word prev
        && nextBoundaryOk word ((c :: rest).drop word.length) then
      acc.reverse :: scanSegsAux word fuel word.getLast? [] ((c :: rest).drop word.length)
    else
      scanSegsAux word fuel (some c) (c :: acc) rest

def scanSegs (word t : Text) : List Text := scanSegsAux word (tlen t) none [] t

/-- `_count_exact_word(word, text)` = `len(re.findall(pattern, text))`.  The
scan collects the segments between successive non-overlapping matches; the
match count is one less than the number of segments.  The tracked terms of the
pipeline always have at least two characters, so the empty word is mapped to 0. -/
def countExactWord (word t : Text) : Nat :=
  if word.isEmpty then 0 else (scanSegs word t).length - 1

example : countExactWord "cat".data "concatenate".data = 0 := by decide
example : countExactWord "cat".data "the cat sat".data = 1 := by decide
example : countExactWord "전기".data "전기 요금과 전기".data = 2 := by decide
example : countExactWord "전기".data "전기차".data = 0 := by decide

/- ------------------------------------------------------------------ -/
/- Generic string utilities used by several methods.                   -/
/- ------------------------------------------------------------------ -/

/-- First index at which `pat` occurs as a contiguous substring
(Python `str.find`, and `re.search` of a literal pattern). -/
def findSubAux (pat : Text) : Nat → Nat → Text → Option Nat
  | _, i, [] => if pat.isEmpty then some i else none
  | 0, _, _ => none
  | fuel + 1, i, c :: rest =>
    if pat.isPrefixOf (c :: rest) then some i
    else natCase (i + 1) (fun j => findSubAux pat fuel j rest)

def findSub (pat t : Text) : Option Nat := findSubAux pat (tlen t + 1) 0 t

/-- Python `pat in t` for strings. -/
def containsSub (t pat : Text) : Bool := (findSub pat t).isSome

/-- Python `str.split()` with no arguments: split on whitespace runs and
discard empty pieces. -/
def splitWSAux : Nat → Text → List Text
  | 0, _ => []
  | _ + 1, [] => []
  | fuel + 1, c :: rest =>
    if pyIsSpace c then splitWSAux fuel rest
    else
      ((c :: rest).takeWhile (fun d => !pyIsSpace d)) ::
        splitWSAux fuel ((c :: rest).dropWhile (fun d => !pyIsSpace d))

def splitWS (t : Text) : List Text := splitWSAux (tlen t) t

/-- Insert-or-replace into an insertion-ordered association list: the model of
assignment into a Python dict. -/
def upsert (m : List (Text × Nat)) (k : Text) (v : Nat) : List (Text × Nat) :=
  if m.any (fun kv => kv.1 == k) then
    m.map (fun kv => if kv.1 == k then (k, v) else kv)
  else m ++ [(k, v)]

/- ------------------------------------------------------------------ -/
/- `separate_content_and_refs` (optimizer.py:1433-1458).                -/
/- ------------------------------------------------------------------ -/

structure RefsSplit where
  contentWithoutRefs : Text
  refsSection : Option Text
deriving DecidableEq

/-- The literal heading that demarcates the references section. -/
def refsMarker : Text := "## 참고자료".data

/-- `re.search(r"(## 참고자료.*$)", content, DOTALL | MULTILINE)`: with DOTALL the
match runs from the first occurrence of the literal marker to the end of the
string; the content part is everything before it, stripped. -/
def separateContentAndRefs (content : Text) : RefsSplit :=
  match findSub refsMarker content with
  | some i => ⟨pyStrip (content.take i), some (content.drop i)⟩
  | none => ⟨content, none⟩

/- ------------------------------------------------------------------ -/
/- `analyze_content` (optimizer.py:1460-1549).                          -/
/- ------------------------------------------------------------------ -/

/-- The snapshot dict built by `analyze_content`.  The nested
`morpheme_analysis -> morpheme_analysis` map is flattened into the
insertion-ordered association list `morpheme_counts`; the stored per-morpheme
`is_valid` flags equal `17 <= count <= 20` of the stored count and are
recomputed on demand by `validCount17`. -/
structure Analysis where
  char_count : Nat
  is_valid_char_count : Bool
  morpheme_counts : List (Text × Nat)
  is_valid_morphemes : Bool
deriving DecidableEq

def validCount17 (c : Nat) : Bool := 17 ≤ c && c ≤ 20

/-- `analyze_content(content, keyword)`.  `morphs` is the Okt tokenizer
(`self.okt.morphs`), an external collaborator supplied as a function. -/
def analyzeContent (morphs : Text → List Text) (content keyword : Text) : Analysis :=
  let cc := charCount content
  let keywordCount := countExactWord keyword content
  let m0 : List (Text × Nat) := [(keyword, keywordCount)]
  let keywordMorphemes := morphs keyword
  let significant := keywordMorphemes.filter (fun m => 2 ≤ m.length)
  let isCompound := content0 keyword
  let keywordParts := if isCompound then (splitWS keyword).filter (fun p => 2 ≤ p.length) else []
  let m1 := keywordParts.foldl (fun acc part => upsert acc part (countExactWord part content)) m0
  let m2 := significant.foldl (fun acc m =>
    if keywordParts.contains m || m == keyword then acc
    else upsert acc m (countExactWord m content)) m1
  { char_count := cc
    is_valid_char_count := 1700 ≤ cc && cc ≤ 2000
    morpheme_counts := m2
    is_valid_morphemes := m2.all (fun kv => validCount17 kv.2) }
where
  /-- `' ' in keyword` -/
  content0 (keyword : Text) : Bool := keyword.contains ' '

/- ------------------------------------------------------------------ -/
/- `_is_seo_result_better` (optimizer.py:1382-1431).                    -/
/- ------------------------------------------------------------------ -/

/-- `abs(char_count - 1850)`, the distance to the midpoint of the 1700-2000
character range. -/
def charDist (a : Analysis) : Nat := Int.natAbs ((a.char_count : Int) - 1850)

/-- Twice the source's morpheme score `sum(abs(count - 18.5))`.  Every summand
`abs(count - 18.5)` is a half-integer represented exactly by the source's
floats, so doubling preserves every comparison between scores. -/
def morphScore2 (a : Analysis) : Nat :=
  a.morpheme_counts.foldl (fun s kv => s + Int.natAbs (2 * (kv.2 : Int) - 37)) 0

/-- `_is_seo_result_better(new_analysis, current_analysis)`. -/
def isSeoResultBetter (a b : Analysis) : Bool :=
  if a.is_valid_char_count && !b.is_valid_char_count then true
  else if !a.is_valid_char_count && b.is_valid_char_count then false
  else if a.is_valid_morphemes && !b.is_valid_morphemes then true
  else if !a.is_valid_morphemes && b.is_valid_morphemes then false
  else if charDist a < charDist b then true
  else morphScore2 a < morphScore2 b

/-- A snapshot satisfying both hard constraints at once. -/
def bothValidSnap (a : Analysis) : Bool := a.is_valid_char_count && a.is_valid_morphemes

/-- Number of tracked terms whose count lies within the 17-20 range. -/
def termsInRange (a : Analysis) : Nat :=
  (a.morpheme_counts.filter (fun kv => validCount17 kv.2)).length

/-- Modelled from the spec wording of claim C1 (spec §4.3): the five-step
priority order the claim asserts for the result comparator, with ties keeping
the baseline.  This definition follows the claim's words, to be compared
against `isSeoResultBetter`, which is translated from the source. -/
def specIsBetterC1 (a b : Analysis) : Bool :=
  if bothValidSnap a && !bothValidSnap b then true
  else if bothValidSnap b && !bothValidSnap a then false
  else if charDist a < charDist b then true
  else if charDist b < charDist a then false
  else if termsInRange b < termsInRange a then true
  else if termsInRange a < termsInRange b then false
  else if morphScore2 a < morphScore2 b then true
  else false

example :
    isSeoResultBetter
      { char_count := 2500, is_valid_char_count := false,
        morpheme_counts := [("m".data, 18)], is_valid_morphemes := true }
      { char_count := 2100, is_valid_char_count := false,
        morpheme_counts := [("m".data, 25)], is_valid_morphemes := false } = true := by
  decide

example :
    specIsBetterC1
      { char_count := 2500, is_valid_char_count := false,
        morpheme_counts := [("m".data, 18)], is_valid_morphemes := true }
      { char_count := 2100, is_valid_char_count := false,
        morpheme_counts := [("m".data, 25)], is_valid_morphemes := false } = false := by
  decide

/- ------------------------------------------------------------------ -/
/- Paragraph and sentence machinery.                                   -/
/- ------------------------------------------------------------------ -/

/-- `re.split(r'\n\n+', content)`: a run of two or more newlines separates
paragraphs and is consumed entirely. -/
def splitParasAux : Nat → Text → Text → List Text
  | 0, acc, _ => [acc.reverse]
  | _ + 1, acc, [] => [acc.reverse]
  | fuel + 1, acc, c :: rest =>
    if c = '\n' ∧ rest.head? = some '\n' then
      acc.reverse :: splitParasAux fuel [] ((rest.drop 1).dropWhile (fun x => x == '\n'))
    else splitParasAux fuel (c :: acc) rest

def splitParas (t : Text) : List Text := splitParasAux (tlen t) [] t

/-- Python `sep.join(parts)`. -/
def joinWith (sep : Text) : List Text → Text
  | [] => []
  | [x] => x
  | x :: y :: rest => x ++ sep ++ joinWith sep (y :: rest)

/-- `"\n\n".join(parts)` -/
def joinNN (parts : List Text) : Text := joinWith ['\n', '\n'] parts

/-- `" ".join(parts)` -/
def joinSp (parts : List Text) : Text := joinWith [' '] parts

def isSentEnd (c : Char) : Bool := c == '.' || c == '!' || c == '?'

/-- `re.split(r'(?<=[.!?])\s+', p)`: split at a whitespace run that immediately
follows a sentence-ending punctuation mark; the punctuation stays with the
preceding sentence and the whitespace run is consumed. -/
def splitSentAux : Nat → Text → Text → List Text
  | 0, acc, _ => [acc.reverse]
  | _ + 1, acc, [] => [acc.reverse]
  | _ + 1, acc, [c] => [(c :: acc).reverse]
  | fuel + 1, acc, c :: d :: rest =>
    if isSentEnd c && pyIsSpace d then
      (c :: acc).reverse :: splitSentAux fuel [] ((d :: rest).dropWhile pyIsSpace)
    else
      splitSentAux fuel (c :: acc) (d :: rest)

def splitSent (t : Text) : List Text := splitSentAux (tlen t) [] t

/-- Stable insertion for descending order: the model of Python's stable
`list.sort(key=..., reverse=True)`; an element is inserted after every
strictly greater key and before equal keys that originally came later. -/
def insertDescBy (key : α → Nat) (x : α) : List α → List α
  | [] => [x]
  | y :: ys => if key x < key y then y :: insertDescBy key x ys else x :: y :: ys

def sortDescBy (key : α → Nat) : List α → List α
  | [] => []
  | x :: xs => insertDescBy key x (sortDescBy key xs)

/-- Stable insertion for ascending order (`list.sort(key=...)`). -/
def insertAscBy (key : α → Nat) (x : α) : List α → List α
  | [] => [x]
  | y :: ys => if key y ≤ key x then y :: insertAscBy key x ys else x :: y :: ys

def sortAscBy (key : α → Nat) : List α → List α
  | [] => []
  | x :: xs => insertAscBy key x (sortAscBy key xs)

/- ------------------------------------------------------------------ -/
/- `_reduce_paragraph` (optimizer.py:1259-1306).                        -/
/- ------------------------------------------------------------------ -/

/-- The removal loop of `_reduce_paragraph`: walk the importance-sorted
`(index, importance, charcount)` triples, collecting indices until the removed
character total reaches the target. -/
def pickToRemove : List (Nat × Nat × Nat) → Nat → Nat → List Nat
  | [], _, _ => []
  | (i, _, cc) :: rest, removed, target =>
    if target ≤ removed then []
    else i :: pickToRemove rest (removed + cc) target

/-- `_reduce_paragraph(paragraph, chars_to_remove)`.  The importance
`position_factor * len(sentence) / 30` is modelled by the integer key
`position_factor * len(sentence)`; dividing by the constant 30 changes no
comparison between keys, so the stable sort produces the same order. -/
def reduceParagraph (paragraph : Text) (charsToRemove : Nat) : Text :=
  let sentences := splitSent paragraph
  if sentences.length ≤ 1 then paragraph
  else
    let importance := sentences.enum.map (fun is8 =>
      let posFactor : Nat := if is8.1 = 0 || is8.1 = sentences.length - 1 then 3 else 1
      (is8.1, posFactor * is8.2.length, charCount is8.2))
    let sorted := sortAscBy (fun x => x.2.1) importance
    let toRemove := pickToRemove sorted 0 charsToRemove
    joinSp ((sentences.enum.filter (fun ip => !toRemove.contains ip.1)).map (fun ip => ip.2))

/- ------------------------------------------------------------------ -/
/- `_expand_paragraph` (optimizer.py:1212-1257).                        -/
/- ------------------------------------------------------------------ -/

/-- The eight expansion templates of `_expand_paragraph`, applied to a word. -/
def expandTemplates (word : Text) : List Text :=
  [ "이는 ".data ++ word ++ "에 있어 중요한 요소입니다.".data
  , word ++ "는 효과적으로 활용하는 것이 좋습니다.".data
  , "많은 사람들이 ".data ++ word ++ "의 중요성을 간과하곤 합니다.".data
  , word ++ "에 대한 이해는 핵심적인 부분입니다.".data
  , "전문가들은 ".data ++ word ++ "에 주목할 것을 권장합니다.".data
  , "실제로 ".data ++ word ++ "가 큰 차이를 만들어냅니다.".data
  , word ++ "에 관한 정보를 충분히 활용해보세요.".data
  , "이러한 ".data ++ word ++ "의 특성을 잘 파악하는 것이 중요합니다.".data ]

/-- `_expand_paragraph(paragraph, chars_to_add)`.  `nounsF` is `self.okt.nouns`;
`rnd` is an injected random stream: the k-th generated sentence uses
`rnd (2k)` to choose the word and `rnd (2k+1)` to choose the template,
modelling the two successive `random.choice` calls. -/
def expandParagraph (nounsF : Text → List Text) (rnd : Nat → Nat)
    (paragraph : Text) (charsToAdd : Nat) : Text :=
  let sentencesToAdd := max 1 (charsToAdd / 20)
  let words := nounsF paragraph
  let keyWords0 := words.filter (fun w => 1 < w.length)
  let keyWords := if keyWords0.isEmpty then
      ["이".data, "활용".data, "방법".data, "정보".data] else keyWords0
  let expansion := (List.range sentencesToAdd).map (fun k =>
    let word := keyWords.getD (rnd (2 * k) % keyWords.length) []
    (expandTemplates word).getD (rnd (2 * k + 1) % 8) [])
  paragraph ++ ' ' :: joinSp expansion

/- ------------------------------------------------------------------ -/
/- `_enforce_exact_char_count_v2` (optimizer.py:1132-1210).             -/
/- ------------------------------------------------------------------ -/

/-- Index of the last paragraph that is not a heading (the source's reversed
search loop). -/
def lastNonHeadingIdx (paras : List Text) : Option Nat :=
  ((paras.enum.filter (fun ip => !isHeading ip.2)).getLast?).map (fun ip => ip.1)

/-- Expand the last non-heading paragraph in place (`v2`'s expansion branch). -/
def expandLastPara (nounsF : Text → List Text) (rnd : Nat → Nat)
    (paras : List Text) (charsToAdd : Nat) : List Text :=
  match lastNonHeadingIdx paras with
  | some i => paras.set i (expandParagraph nounsF rnd (paras.getD i []) charsToAdd)
  | none => paras

/-- The reduction loop of `v2`: walk the length-sorted `(index, length)` pairs;
each paragraph gets the allotment `min(remaining, length // 3)`, which is
subtracted from `remaining` whether or not `_reduce_paragraph` actually
removed that many characters. -/
def v2ReduceAssign : List (Nat × Nat) → Nat → List Text → List Text
  | [], _, paras => paras
  | (idx, len8) :: rest, remaining, paras =>
    if remaining = 0 then paras
    else
      let cfp := min remaining (len8 / 3)
      if 0 < cfp then
        v2ReduceAssign rest (remaining - cfp)
          (paras.set idx (reduceParagraph (paras.getD idx []) cfp))
      else v2ReduceAssign rest remaining paras

/-- The paragraph list that `_enforce_exact_char_count_v2` joins with `"\n\n"`
in its two modifying branches (expansion / reduction). -/
def enforceCharCountV2Parts (nounsF : Text → List Text) (rnd : Nat → Nat)
    (content : Text) (targetCharCount tolerance : Nat) : List Text :=
  let cc := charCount content
  let minChars := targetCharCount - tolerance
  let maxChars := targetCharCount + tolerance
  let paras := splitParas content
  if cc < minChars then
    expandLastPara nounsF rnd paras (minChars - cc)
  else if maxChars < cc then
    let lens := (paras.enum.filter (fun ip => !isHeading ip.2)).map
      (fun ip => (ip.1, charCount ip.2))
    let sorted := sortDescBy (fun x => x.2) lens
    v2ReduceAssign sorted (cc - maxChars) paras
  else paras

/-- `_enforce_exact_char_count_v2(content, target_char_count, tolerance)`. -/
def enforceCharCountV2 (nounsF : Text → List Text) (rnd : Nat → Nat)
    (content : Text) (targetCharCount tolerance : Nat) : Text :=
  let cc := charCount content
  let minChars := targetCharCount - tolerance
  let maxChars := targetCharCount + tolerance
  if minChars ≤ cc ∧ cc ≤ maxChars then content
  else joinNN (enforceCharCountV2Parts nounsF rnd content targetCharCount tolerance)

/- ------------------------------------------------------------------ -/
/- `force_limit_char_count` (optimizer.py:178-345).                     -/
/- ------------------------------------------------------------------ -/

/-- Whole-paragraph removal loop: blank paragraphs (longest first) while the
removed total is still short of the excess and the (fixed) list length exceeds
3.  `normals.length` never changes inside the loop — blanked entries still
count — faithfully mirroring the source. -/
def flRemoveParas : List (Nat × Nat) → Nat → Nat → List Text → List Text × Nat
  | [], removed, _, normals => (normals, removed)
  | (idx, len8) :: rest, removed, excess, normals =>
    if excess ≤ removed || normals.length ≤ 3 then (normals, removed)
    else flRemoveParas rest (removed + len8) excess (normals.set idx [])

/-- Sentence-blanking loop of the fallback stage: walk the length-sorted
`(index, length)` pairs, blanking sentences while the remaining excess is
positive and the (fixed) sentence-list length exceeds 2. -/
def flSentLoop : List (Nat × Nat) → List Text → Int → List Text × Int
  | [], sents, rem => (sents, rem)
  | (idx, len8) :: rest, sents, rem =>
    if rem ≤ 0 || sents.length ≤ 2 then (sents, rem)
    else flSentLoop rest (sents.set idx []) (rem - len8)

/-- One paragraph's sentence-removal pass (optimizer.py:249-264). -/
def flSentenceTrim (sentences : List Text) (remaining : Int) : List Text × Int :=
  let lens := sentences.enum.map (fun ip => (ip.1, charCount ip.2))
  let sorted := sortDescBy (fun x => x.2) lens
  flSentLoop sorted sentences remaining

/-- The sentence-stage loop `for i in range(len(normal_paragraphs))`
(optimizer.py:238-267): on each iteration the indices of the current paragraph
list are re-sorted by length, paragraph `sorted[i % len]` is trimmed, and its
surviving sentences are re-joined with single spaces. -/
def flSentenceStage : Nat → Nat → Int → List Text → List Text
  | 0, _, _, normals => normals
  | fuel + 1, i, remaining, normals =>
    if remaining ≤ 0 then normals
    else if normals.length = 0 then normals
    else
      let sortedIdx := sortDescBy (fun j => charCount (normals.getD j []))
        (List.range normals.length)
      let pidx := sortedIdx.getD (i % normals.length) 0
      let sentences := splitSent (normals.getD pidx [])
      let st := flSentenceTrim sentences remaining
      flSentenceStage fuel (i + 1) st.2
        (normals.set pidx (joinSp (st.1.filter (fun s => !s.isEmpty))))

/-- Reassembly walk (optimizer.py:269-283): traverse the original paragraph
slots; a heading slot re-emits the next collected heading, a body slot emits
the next surviving body paragraph if it is nonempty. -/
def flReassemble : List Text → List Text → List Text → List Text
  | [], _, _ => []
  | p :: ps, headings, normals =>
    if isHeading p then
      match headings with
      | [] => flReassemble ps [] normals
      | h :: hs => h :: flReassemble ps hs normals
    else
      match normals with
      | [] => flReassemble ps headings []
      | n :: ns =>
        if n.isEmpty then flReassemble ps headings ns
        else n :: flReassemble ps headings ns

/-- The `result_paragraphs` list of the over-length branch of
`force_limit_char_count`. -/
def forceLimitOverParts (content : Text) (targetMin targetMax : Nat) : List Text :=
  let cc := charCount content
  let targetChars := (targetMin + targetMax) / 2
  let excess := cc - targetChars
  let paras := splitParas content
  let headings := paras.filter isHeading
  let normals := paras.filter (fun p => !isHeading p)
  let lens := normals.enum.map (fun ip => (ip.1, charCount ip.2))
  let sorted := sortDescBy (fun x => x.2) lens
  let pr := flRemoveParas sorted 0 excess normals
  let normals3 := pr.1.filter (fun p => !p.isEmpty)
  let normals4 :=
    if pr.2 < excess then
      flSentenceStage normals3.length 0 ((excess : Int) - (pr.2 : Int)) normals3
    else normals3
  flReassemble paras headings normals4

/-- The under-length-branch templates (optimizer.py:322-331); unlike
`_expand_paragraph`'s, each ends with a trailing space and the chosen
sentences are concatenated directly. -/
def flUnderTemplates (noun : Text) : List Text :=
  [ "이는 ".data ++ noun ++ "에 있어 중요한 요소입니다. ".data
  , noun ++ "는 효과적으로 활용하는 것이 좋습니다. ".data
  , "많은 사람들이 ".data ++ noun ++ "의 중요성을 간과하곤 합니다. ".data
  , noun ++ "에 대한 이해는 핵심적인 부분입니다. ".data
  , "전문가들은 ".data ++ noun ++ "에 주목할 것을 권장합니다. ".data
  , "실제로 ".data ++ noun ++ "가 큰 차이를 만들어냅니다. ".data
  , noun ++ "에 관한 정보를 충분히 활용해보세요. ".data
  , "이러한 ".data ++ noun ++ "의 특성을 잘 파악하는 것이 중요합니다. ".data ]

/-- The paragraph list of the under-length branch of `force_limit_char_count`:
the last non-heading paragraph is extended with generated sentences. -/
def forceLimitUnderParts (nounsF : Text → List Text) (rnd : Nat → Nat)
    (content : Text) (targetMin _targetMax : Nat) : List Text :=
  let cc := charCount content
  let shortage := targetMin - cc
  let paras := splitParas content
  match lastNonHeadingIdx paras with
  | none => paras
  | some i =>
    let nouns := nounsF (paras.getD i [])
    let significant0 := nouns.filter (fun n => 2 ≤ n.length)
    let significant := if significant0.isEmpty then
        ["이것".data, "활용".data, "방법".data, "정보".data] else significant0
    let sentencesToAdd := max 1 (shortage / 20)
    let additional := (List.range sentencesToAdd).foldl (fun acc k =>
      let noun := significant.getD (rnd (2 * k) % significant.length) []
      acc ++ (flUnderTemplates noun).getD (rnd (2 * k + 1) % 8) []) []
    paras.set i (paras.getD i [] ++ ' ' :: additional)

/-- `force_limit_char_count(content, target_min, target_max)`. -/
def forceLimitCharCount (nounsF : Text → List Text) (rnd : Nat → Nat)
    (content : Text) (targetMin targetMax : Nat) : Text :=
  let cc := charCount content
  if cc ≤ targetMax ∧ targetMin ≤ cc then content
  else if targetMax < cc then
    joinNN (forceLimitOverParts content targetMin targetMax)
  else if cc < targetMin then
    joinNN (forceLimitUnderParts nounsF rnd content targetMin targetMax)
  else content

/- ------------------------------------------------------------------ -/
/- Claim C9: boundary-correct exact counting.                          -/
/- ------------------------------------------------------------------ -/

@[simp] theorem isHangul_jeon : isHangul '전' = true := by decide
@[simp] theorem isHangul_gi : isHangul '기' = true := by decide
@[simp] theorem isWordChar_jeon : isWordChar '전' = true := by decide
@[simp] theorem isWordChar_gi : isWordChar '기' = true := by decide

/-- C9: `_count_exact_word` counts only boundary-delimited whole-word
occurrences: for space-delimited terms, `count("cat", "concatenate") = 0` and
`count("cat", "the cat sat") = 1`; a Hangul term is counted only when neither
the character immediately before nor immediately after is Hangul (and is
counted when both neighbours are non-Hangul); and the count of every nonempty
term in the empty string is 0. -/
theorem c9_count_exact_word_boundaries :
    countExactWord "cat".data "concatenate".data = 0
  ∧ countExactWord "cat".data "the cat sat".data = 1
  ∧ (∀ c : Char, isHangul c = true →
      countExactWord "전기".data (c :: "전기".data) = 0
      ∧ countExactWord "전기".data ("전기".data ++ [c]) = 0)
  ∧ (∀ c : Char, isHangul c = false →
      countExactWord "전기".data (c :: "전기".data) = 1
      ∧ countExactWord "전기".data ("전기".data ++ [c]) = 1)
  ∧ (∀ w : Text, 1 ≤ w.length → countExactWord w [] = 0) := by
  refine ⟨by decide, by decide, ?_, ?_, ?_⟩
  · intro c h
    constructor
    · simp [countExactWord, scanSegs, tlen, tlenAux, natCase, scanSegsAux,
        prevBoundaryOk, nextBoundaryOk, h, List.isPrefixOf]
    · simp [countExactWord, scanSegs, tlen, tlenAux, natCase, scanSegsAux,
        prevBoundaryOk, nextBoundaryOk, h, List.isPrefixOf]
  · intro c h
    constructor
    · simp [countExactWord, scanSegs, tlen, tlenAux, natCase, scanSegsAux,
        prevBoundaryOk, nextBoundaryOk, h, List.isPrefixOf]
    · simp [countExactWord, scanSegs, tlen, tlenAux, natCase, scanSegsAux,
        prevBoundaryOk, nextBoundaryOk, h, List.isPrefixOf]
  · intro w _
    cases w <;> simp [countExactWord, scanSegs, tlen, tlenAux, scanSegsAux]

/-- Witness for C9 at concrete inputs: a Hangul neighbour (`'차'`), a
non-Hangul neighbour (`'x'`), and a concrete nonempty term on the empty
string. -/
theorem c9_count_exact_word_boundaries_witness :
    (isHangul '차' = true ∧ countExactWord "전기".data ('차' :: "전기".data) = 0)
  ∧ (isHangul 'x' = false ∧ countExactWord "전기".data ('x' :: "전기".data) = 1)
  ∧ (1 ≤ "전기".data.length ∧ countExactWord "전기".data [] = 0) :=
  ⟨⟨by decide, (c9_count_exact_word_boundaries.2.2.1 '차' (by decide)).1⟩,
   ⟨by decide, (c9_count_exact_word_boundaries.2.2.2.1 'x' (by decide)).1⟩,
   ⟨by decide, c9_count_exact_word_boundaries.2.2.2.2 "전기".data (by decide)⟩⟩

/- ------------------------------------------------------------------ -/
/- Claim C1: the result comparator's priority order.                   -/
/- ------------------------------------------------------------------ -/

/-- Modelled from the spec wording of claim C4 (spec §4.2): the char count
the claim asserts — length of the input text after the references section (if
present) has been stripped and all whitespace has been removed.  To be
compared with the `char_count` field computed by `analyzeContent`, which is
translated from the source. -/
def specCharCountC4 (content : Text) : Nat :=
  (((separateContentAndRefs content).contentWithoutRefs).filter
    (fun c => !pyIsSpace c)).length

/-- The sentence-blanking loop never edits a sentence list of length at most 2:
its guard holds at the very first iteration. -/
theorem flSentLoop_of_le_two (l : List (Nat × Nat)) (sents : List Text) (rem : Int)
    (h : sents.length ≤ 2) : flSentLoop l sents rem = (sents, rem) := by
  cases l with
  | nil => rfl
  | cons a rest =>
    obtain ⟨i, n⟩ := a
    simp [flSentLoop, h]

@[simp] theorem charCount_nil : charCount ([] : Text) = 0 := rfl

theorem charCount_cons (c : Char) (t : Text) :
    charCount (c :: t) = (if c = ' ' then 0 else 1) + charCount t := by
  by_cases h : c = ' '
  · simp [charCount_eq, h]
  · simp [charCount_eq, h]; omega

theorem charCount_append (a b : Text) :
    charCount (a ++ b) = charCount a + charCount b := by
  simp [charCount_eq, List.filter_append]

theorem charCount_reverse (t : Text) : charCount t.reverse = charCount t := by
  simp [charCount_eq, List.filter_reverse]

theorem charCount_le_of_sublist {a b : Text} (h : a.Sublist b) :
    charCount a ≤ charCount b := by
  simp only [charCount_eq]
  exact (h.filter _).length_le

theorem charCount_dropWhile_le (p : Char → Bool) (t : Text) :
    charCount (t.dropWhile p) ≤ charCount t :=
  charCount_le_of_sublist (List.dropWhile_suffix p).sublist

theorem sum_charCount_sublist {a b : List Text} (h : a.Sublist b) :
    (a.map charCount).sum ≤ (b.map charCount).sum :=
  List.Sublist.sum_le_sum (h.map charCount) (by simp)

theorem charCount_joinWith (sep : Text) (l : List Text) :
    charCount (joinWith sep l) =
      (l.map charCount).sum + charCount sep * (l.length - 1) := by
  induction l with
  | nil => simp [joinWith]
  | cons x l ih =>
    cases l with
    | nil => simp [joinWith]
    | cons y rest =>
      simp only [joinWith, charCount_append, ih, List.map_cons, List.sum_cons,
        List.length_cons, Nat.succ_sub_one]
      ring

theorem charCount_joinSp (l : List Text) :
    charCount (joinSp l) = (l.map charCount).sum := by
  have h : charCount [' '] = 0 := by decide
  simp [joinSp, charCount_joinWith, h]

theorem charCount_joinNN (l : List Text) :
    charCount (joinNN l) = (l.map charCount).sum + 2 * (l.length - 1) := by
  have h : charCount ['\n', '\n'] = 2 := by decide
  simp [joinNN, charCount_joinWith, h]

theorem splitSentAux_sum_le (fuel : Nat) : ∀ (acc t : Text),
    ((splitSentAux fuel acc t).map charCount).sum ≤ charCount acc + charCount t := by
  induction fuel with
  | zero => intro acc t; simp [splitSentAux, charCount_reverse]
  | succ fuel ih =>
    intro acc t
    match t with
    | [] => simp [splitSentAux, charCount_reverse]
    | [c] =>
      simp only [splitSentAux, List.map_cons, List.map_nil, List.sum_cons,
        List.sum_nil, List.reverse_cons, charCount_append, charCount_reverse,
        charCount_cons, charCount_nil]
      by_cases h : c = ' ' <;> simp [h]
    | c :: d :: rest =>
      by_cases h : isSentEnd c && pyIsSpace d
      · have hrec := ih [] ((d :: rest).dropWhile pyIsSpace)
        rw [charCount_nil] at hrec
        have hdrop := charCount_dropWhile_le pyIsSpace (d :: rest)
        rw [charCount_cons d rest] at hdrop
        have hstep : splitSentAux (fuel + 1) acc (c :: d :: rest)
            = (c :: acc).reverse ::
              splitSentAux fuel [] ((d :: rest).dropWhile pyIsSpace) := by
          simp [splitSentAux, h]
        rw [hstep]
        simp only [List.map_cons, List.sum_cons, List.reverse_cons,
          charCount_append, charCount_reverse, charCount_cons, charCount_nil]
        omega
      · have hrec := ih (c :: acc) (d :: rest)
        rw [charCount_cons c acc, charCount_cons d rest] at hrec
        have hstep : splitSentAux (fuel + 1) acc (c :: d :: rest)
            = splitSentAux fuel (c :: acc) (d :: rest) := by
          simp [splitSentAux, h]
        rw [hstep]
        simp only [charCount_cons]
        omega

theorem splitSent_sum_le (t : Text) :
    ((splitSent t).map charCount).sum ≤ charCount t := by
  have h := splitSentAux_sum_le (tlen t) [] t
  rw [charCount_nil] at h
  simpa [splitSent] using h

theorem splitParasAux_length_pos (fuel : Nat) : ∀ (acc t : Text),
    1 ≤ (splitParasAux fuel acc t).length := by
  induction fuel with
  | zero => intro acc t; simp [splitParasAux]
  | succ fuel ih =>
    intro acc t
    match t with
    | [] => simp [splitParasAux]
    | c :: rest =>
      by_cases h : c = '\n' ∧ rest.head? = some '\n'
      · simp [splitParasAux, h]
      · simpa [splitParasAux, h] using ih (c :: acc) rest

theorem splitParasAux_sum_le (fuel : Nat) : ∀ (acc t : Text),
    ((splitParasAux fuel acc t).map charCount).sum
      + 2 * ((splitParasAux fuel acc t).length - 1)
      ≤ charCount acc + charCount t := by
  induction fuel with
  | zero => intro acc t; simp [splitParasAux, charCount_reverse]
  | succ fuel ih =>
    intro acc t
    match t with
    | [] => simp [splitParasAux, charCount_reverse]
    | c :: rest =>
      by_cases h : c = '\n' ∧ rest.head? = some '\n'
      · obtain ⟨hc, hh⟩ := h
        cases rest with
        | nil => simp at hh
        | cons d rest2 =>
          have hd : d = '\n' := by simpa using hh
          subst hc; subst hd
          have hstep : splitParasAux (fuel + 1) acc ('\n' :: '\n' :: rest2)
              = acc.reverse ::
                splitParasAux fuel [] (rest2.dropWhile (fun x => x == '\n')) := by
            simp [splitParasAux, List.drop_one]
          rw [hstep]
          have hrec := ih [] (rest2.dropWhile (fun x => x == '\n'))
          rw [charCount_nil] at hrec
          have hdrop := charCount_dropWhile_le (fun x => x == '\n') rest2
          have hpos := splitParasAux_length_pos fuel []
            (rest2.dropWhile (fun x => x == '\n'))
          have h1 : charCount ('\n' :: '\n' :: rest2) = 1 + (1 + charCount rest2) := by
            simp [charCount_cons]
          simp only [List.map_cons, List.sum_cons, List.length_cons,
            charCount_reverse, h1]
          omega
      · have hrec := ih (c :: acc) rest
        rw [charCount_cons] at hrec
        have hcc : charCount (c :: rest)
            = (if c = ' ' then 0 else 1) + charCount rest := charCount_cons _ _
        simp only [splitParasAux, h, if_false, hcc]
        omega

theorem splitParas_sum_le (t : Text) :
    ((splitParas t).map charCount).sum + 2 * ((splitParas t).length - 1)
      ≤ charCount t := by
  have h := splitParasAux_sum_le (tlen t) [] t
  rw [charCount_nil] at h
  simpa [splitParas] using h

theorem sum_charCount_set_le (paras : List Text) : ∀ (i : Nat) (x : Text),
    charCount x ≤ charCount (paras.getD i []) →
    ((paras.set i x).map charCount).sum ≤ (paras.map charCount).sum := by
  induction paras with
  | nil => intro i x _; simp
  | cons p ps ih =>
    intro i x hx
    cases i with
    | zero =>
      simp only [List.getD_cons_zero] at hx
      simp only [List.set, List.map_cons, List.sum_cons]
      omega
    | succ j =>
      simp only [List.getD_cons_succ] at hx
      simp only [List.set, List.map_cons, List.sum_cons]
      have := ih j x hx
      omega

theorem charCount_reduceParagraph_le (p : Text) (c : Nat) :
    charCount (reduceParagraph p c) ≤ charCount p := by
  unfold reduceParagraph
  by_cases h : (splitSent p).length ≤ 1
  · simp [h]
  · simp only [h, if_false]
    have hsub : (((splitSent p).enum.filter
        (fun ip => !(pickToRemove (sortAscBy (fun x => x.2.1)
          ((splitSent p).enum.map (fun is8 =>
            (is8.1, (if is8.1 = 0 || is8.1 = (splitSent p).length - 1 then 3 else 1)
              * is8.2.length, charCount is8.2)))) 0 c).contains ip.1)).map
        (fun ip => ip.2)).Sublist (splitSent p) := by
      have h1 : ((splitSent p).enum.filter
          (fun ip => !(pickToRemove (sortAscBy (fun x => x.2.1)
            ((splitSent p).enum.map (fun is8 =>
              (is8.1, (if is8.1 = 0 || is8.1 = (splitSent p).length - 1 then 3 else 1)
                * is8.2.length, charCount is8.2)))) 0 c).contains ip.1)).Sublist
          ((splitSent p).enum) :=
        List.filter_sublist ((splitSent p).enum)
      have h2 := h1.map Prod.snd
      simpa [List.enum_map_snd] using h2
    calc charCount (joinSp _) = _ := charCount_joinSp _
    _ ≤ ((splitSent p).map charCount).sum := sum_charCount_sublist hsub
    _ ≤ charCount p := splitSent_sum_le p

theorem v2ReduceAssign_bound (l : List (Nat × Nat)) : ∀ (rem : Nat) (paras : List Text),
    ((v2ReduceAssign l rem paras).map charCount).sum ≤ (paras.map charCount).sum
  ∧ (v2ReduceAssign l rem paras).length = paras.length := by
  induction l with
  | nil => intro rem paras; simp [v2ReduceAssign]
  | cons a rest ih =>
    intro rem paras
    obtain ⟨idx, len8⟩ := a
    by_cases h0 : rem = 0
    · simp [v2ReduceAssign, h0]
    · by_cases hc : 0 < min rem (len8 / 3)
      · have hstep : v2ReduceAssign ((idx, len8) :: rest) rem paras
            = v2ReduceAssign rest (rem - min rem (len8 / 3))
              (paras.set idx (reduceParagraph (paras.getD idx []) (min rem (len8 / 3)))) := by
          simp [v2ReduceAssign, h0, hc]
        rw [hstep]
        have hset := sum_charCount_set_le paras idx
          (reduceParagraph (paras.getD idx []) (min rem (len8 / 3)))
          (charCount_reduceParagraph_le _ _)
        have hr := ih (rem - min rem (len8 / 3))
          (paras.set idx (reduceParagraph (paras.getD idx []) (min rem (len8 / 3))))
        refine ⟨le_trans hr.1 hset, ?_⟩
        rw [hr.2, List.length_set]
      · have hstep : v2ReduceAssign ((idx, len8) :: rest) rem paras
            = v2ReduceAssign rest rem paras := by
          simp [v2ReduceAssign, h0, hc]
        rw [hstep]
        exact ih rem paras

/- ------------------------------------------------------------------ -/
/- Claim C2: char-count convergence of the forced adjustment.          -/
/- ------------------------------------------------------------------ -/

/-- C2 counterexample: a single-paragraph text of 210 non-space characters
(two sentences of 9 and 201), fed to `_enforce_exact_char_count_v2` with the
claim's `target = mid(range) = 185` and `tolerance = 15` for the range
170-200 that the text exceeds.  The per-paragraph allotment is
`min(210-200, 210//3) = 10`; the removal loop blanks the 9-character sentence
(9 < 10) and then the 201-character one, so the result is the empty text:
char count 0, far below `target - tolerance = 170`, with no
paragraph-count or sentence-count floor having stopped the removal (nothing
at all was kept). -/
theorem c2_char_convergence_cex :
    charCount (List.replicate 8 'a' ++ '.' :: ' ' :: List.replicate 201 'b') = 210
  ∧ (170 + 200) / 2 = 185
  ∧ enforceCharCountV2 (fun _ => []) (fun _ => 0)
      (List.replicate 8 'a' ++ '.' :: ' ' :: List.replicate 201 'b') 185 15 = []
  ∧ charCount ([] : Text) < 185 - 15 := by
  refine ⟨by decide, by decide, by decide, by decide⟩

/-- C2 amended: on a text whose char count exceeds `target + tolerance`,
`_enforce_exact_char_count_v2` performs one bounded pass (a total function of
its input — termination is by construction) and never increases the non-space
char count, but it does not guarantee landing in
`[target - tolerance, target + tolerance]`: the per-paragraph `length // 3`
cap can remove too little, allotments are debited even when nothing could be
removed, and `_reduce_paragraph` can overshoot past the band — down to the
empty text. -/
theorem c2_char_convergence_amended (nounsF : Text → List Text) (rnd : Nat → Nat)
    (content : Text) (target tol : Nat)
    (h : target + tol < charCount content) :
    charCount (enforceCharCountV2 nounsF rnd content target tol)
      ≤ charCount content := by
  have hnot : ¬(target - tol ≤ charCount content ∧ charCount content ≤ target + tol) := by
    omega
  have hlt : ¬ charCount content < target - tol := by omega
  unfold enforceCharCountV2 enforceCharCountV2Parts
  simp only [hnot, hlt, h, if_true, if_false]
  rw [charCount_joinNN]
  have hb := v2ReduceAssign_bound
    (sortDescBy (fun x => x.2) (((splitParas content).enum.filter
      (fun ip => !isHeading ip.2)).map (fun ip => (ip.1, charCount ip.2))))
    (charCount content - (target + tol)) (splitParas content)
  have hs := splitParas_sum_le content
  rw [hb.2]
  omega

/-- Witness for C2's amended theorem at the counterexample input. -/
theorem c2_char_convergence_amended_witness :
    185 + 15 < charCount (List.replicate 8 'a' ++ '.' :: ' ' :: List.replicate 201 'b')
  ∧ charCount (enforceCharCountV2 (fun _ => []) (fun _ => 0)
      (List.replicate 8 'a' ++ '.' :: ' ' :: List.replicate 201 'b') 185 15)
      ≤ charCount (List.replicate 8 'a' ++ '.' :: ' ' :: List.replicate 201 'b') :=
  ⟨by decide, c2_char_convergence_amended (fun _ => []) (fun _ => 0) _ 185 15 (by decide)⟩

/- ------------------------------------------------------------------ -/
/- Heading-preservation lemmas (claim C7).                             -/
/- ------------------------------------------------------------------ -/

/-- A list of headings that embeds into `l` also embeds into
`l.filter isHeading`. -/
theorem sublist_filter_of_all {hs l : List Text} (h : hs.Sublist l)
    (hall : ∀ x ∈ hs, isHeading x = true) :
    hs.Sublist (l.filter isHeading) := by
  have h2 := h.filter isHeading
  rwa [List.filter_eq_self.mpr hall] at h2

/-- Membership is preserved by the stable descending insertion. -/
theorem mem_insertDescBy {x y : α} (key : α → Nat) (l : List α) :
    y ∈ insertDescBy key x l ↔ y ∈ x :: l := by
  induction l with
  | nil => simp [insertDescBy]
  | cons a rest ih =>
    by_cases h : key x < key a
    · simp only [insertDescBy, h, if_pos]
      rw [List.mem_cons, ih]
      simp [List.mem_cons]
      tauto
    · simp [insertDescBy, h]

/-- Membership is preserved by the stable descending sort. -/
theorem mem_sortDescBy {y : α} (key : α → Nat) (l : List α) :
    y ∈ sortDescBy key l ↔ y ∈ l := by
  induction l with
  | nil => simp [sortDescBy]
  | cons a rest ih =>
    simp only [sortDescBy]
    rw [mem_insertDescBy]
    simp [ih]

theorem getD_set_ne (l : List Text) : ∀ (i j : Nat) (x : Text), i ≠ j →
    (l.set i x).getD j [] = l.getD j [] := by
  induction l with
  | nil => intro i j x _; simp
  | cons p ps ih =>
    intro i j x hij
    cases i with
    | zero =>
      cases j with
      | zero => exact absurd rfl hij
      | succ j2 => simp [List.set]
    | succ i2 =>
      cases j with
      | zero => simp [List.set]
      | succ j2 =>
        simp only [List.set, List.getD_cons_succ]
        exact ih i2 j2 x (fun h => hij (by rw [h]))

/-- If `l'` has the same length as `l` and agrees with `l` at every index that
holds a heading, then the headings of `l` embed in order into those of `l'`. -/
theorem filter_heading_sublist_pointwise : ∀ (l l' : List Text),
    l'.length = l.length →
    (∀ i, i < l.length → isHeading (l.getD i []) = true → l'.getD i [] = l.getD i []) →
    (l.filter isHeading).Sublist (l'.filter isHeading) := by
  intro l
  induction l with
  | nil => intro l' _ _; simp
  | cons p ps ih =>
    intro l' hlen hsame
    cases l' with
    | nil => simp at hlen
    | cons q qs =>
      simp only [List.length_cons, Nat.succ_inj] at hlen
      by_cases hp : isHeading p = true
      · have hq : q = p := by
          have := hsame 0 (by simp) (by simpa using hp)
          simpa using this
        subst hq
        rw [List.filter_cons_of_pos hp, List.filter_cons_of_pos hp]
        exact (ih qs hlen (fun i hi hh =>
          hsame (i + 1) (by simpa using Nat.succ_lt_succ hi)
            (by simpa using hh))).cons₂ q
      · rw [List.filter_cons_of_neg (by simpa using hp)]
        have hrest := ih qs hlen (fun i hi hh =>
          hsame (i + 1) (by simpa using Nat.succ_lt_succ hi) (by simpa using hh))
        cases hq : isHeading q with
        | false =>
          rw [List.filter_cons_of_neg (by simp [hq])]
          exact hrest
        | true =>
          rw [List.filter_cons_of_pos hq]
          exact hrest.cons q

theorem mem_of_getLastQ {l : List α} {x : α} (h : l.getLast? = some x) : x ∈ l := by
  have hx : x ∈ l.getLast? := by rw [h]; rfl
  obtain ⟨hne, hx2⟩ := List.mem_getLast?_eq_getLast hx
  rw [hx2]
  exact List.getLast_mem hne

theorem getD_of_getElemQ {l : List Text} {i : Nat} {a : Text} (h : l[i]? = some a) :
    l.getD i [] = a := by
  rw [List.getD_eq_getElem?_getD, h]
  rfl

/-- Every index in the reduce-branch worklist of `v2` points at a non-heading
paragraph of the original list. -/
theorem v2Lens_nonheading (paras : List Text) :
    ∀ pr ∈ ((paras.enum.filter (fun ip => !isHeading ip.2)).map
      (fun ip => (ip.1, charCount ip.2))), isHeading (paras.getD pr.1 []) = false := by
  intro pr hpr
  obtain ⟨ip, hmem, hpr2⟩ := List.mem_map.mp hpr
  have hf := List.mem_filter.mp hmem
  have henum : paras[ip.1]? = some ip.2 := by
    have := List.mem_enum_iff_getElem?.mp hf.1
    simpa using this
  have hgd : paras.getD ip.1 [] = ip.2 := getD_of_getElemQ henum
  have hih : isHeading ip.2 = false := by simpa using hf.2
  rw [← hpr2]
  show isHeading (paras.getD ip.1 []) = false
  rw [hgd]
  exact hih

/-- `v2ReduceAssign` touches only indices drawn from its worklist: positions
holding a heading of the original list are returned unchanged. -/
theorem v2ReduceAssign_pointwise : ∀ (l : List (Nat × Nat)) (rem : Nat)
    (paras0 paras : List Text),
    (∀ pr ∈ l, isHeading (paras0.getD pr.1 []) = false) →
    (∀ j, isHeading (paras0.getD j []) = true → paras.getD j [] = paras0.getD j []) →
    ∀ j, isHeading (paras0.getD j []) = true →
      (v2ReduceAssign l rem paras).getD j [] = paras0.getD j [] := by
  intro l
  induction l with
  | nil =>
    intro rem paras0 paras _ hinv j hj
    rw [show v2ReduceAssign [] rem paras = paras from rfl]
    exact hinv j hj
  | cons a rest ih =>
    intro rem paras0 paras hl hinv j hj
    obtain ⟨idx, len8⟩ := a
    have hidx : isHeading (paras0.getD idx []) = false := hl (idx, len8) (by simp)
    have hl2 : ∀ pr ∈ rest, isHeading (paras0.getD pr.1 []) = false := by
      intro pr hpr; exact hl pr (by simp [hpr])
    by_cases h0 : rem = 0
    · simpa [v2ReduceAssign, h0] using hinv j hj
    · by_cases hc : 0 < min rem (len8 / 3)
      · have hstep : v2ReduceAssign ((idx, len8) :: rest) rem paras
            = v2ReduceAssign rest (rem - min rem (len8 / 3))
              (paras.set idx (reduceParagraph (paras.getD idx []) (min rem (len8 / 3)))) := by
          simp [v2ReduceAssign, h0, hc]
        rw [hstep]
        refine ih _ paras0 _ hl2 ?_ j hj
        intro j2 hj2
        have hne : idx ≠ j2 := by
          intro he
          rw [he] at hidx
          rw [hidx] at hj2
          exact absurd hj2 (by simp)
        rw [getD_set_ne _ _ _ _ hne]
        exact hinv j2 hj2
      · have hstep : v2ReduceAssign ((idx, len8) :: rest) rem paras
            = v2ReduceAssign rest rem paras := by
          simp [v2ReduceAssign, h0, hc]
        rw [hstep]
        exact ih _ paras0 paras hl2 hinv j hj

/-- The index `lastNonHeadingIdx` returns always points at a non-heading
paragraph. -/
theorem lastNonHeadingIdx_nonheading (paras : List Text) (i : Nat)
    (h : lastNonHeadingIdx paras = some i) :
    isHeading (paras.getD i []) = false := by
  unfold lastNonHeadingIdx at h
  cases hlast : (paras.enum.filter (fun ip => !isHeading ip.2)).getLast? with
  | none => rw [hlast] at h; simp at h
  | some ip =>
    rw [hlast] at h
    have hmem := mem_of_getLastQ hlast
    have hf := List.mem_filter.mp hmem
    have henum : paras[ip.1]? = some ip.2 := by
      have := List.mem_enum_iff_getElem?.mp hf.1
      simpa using this
    have hgd : paras.getD ip.1 [] = ip.2 := getD_of_getElemQ henum
    have hi : ip.1 = i := by simpa using h
    rw [← hi, hgd]
    simpa using hf.2

/-- The reassembly walk of `force_limit_char_count` re-emits its heading list
in order whenever the original slots offer enough heading positions. -/
theorem flReassemble_heads : ∀ (parts hs ns : List Text),
    hs.length ≤ (parts.filter isHeading).length →
    hs.Sublist (flReassemble parts hs ns) := by
  intro parts
  induction parts with
  | nil =>
    intro hs ns hle
    simp only [List.filter_nil, List.length_nil, Nat.le_zero,
      List.length_eq_zero] at hle
    subst hle
    exact List.nil_sublist _
  | cons p ps ih =>
    intro hs ns hle
    by_cases hp : isHeading p = true
    · cases hs with
      | nil =>
        exact List.nil_sublist _
      | cons h1 hs2 =>
        rw [show flReassemble (p :: ps) (h1 :: hs2) ns
            = h1 :: flReassemble ps hs2 ns by simp [flReassemble, hp]]
        refine List.Sublist.cons₂ h1 (ih hs2 ns ?_)
        rw [List.filter_cons_of_pos hp] at hle
        simpa using hle
    · rw [List.filter_cons_of_neg (by simpa using hp)] at hle
      cases ns with
      | nil =>
        rw [show flReassemble (p :: ps) hs [] = flReassemble ps hs [] by
          simp [flReassemble, hp]]
        exact ih hs [] hle
      | cons n ns2 =>
        by_cases hn : n.isEmpty
        · rw [show flReassemble (p :: ps) hs (n :: ns2)
              = flReassemble ps hs ns2 by simp [flReassemble, hp, hn]]
          exact ih hs ns2 hle
        · rw [show flReassemble (p :: ps) hs (n :: ns2)
              = n :: flReassemble ps hs ns2 by simp [flReassemble, hp, hn]]
          exact (ih hs ns2 hle).cons n

/-- Headings survive `forceLimitUnderParts` and expansion/set-based edits:
setting one non-heading index preserves the filtered heading list. -/
theorem filter_heading_set_nonheading (paras : List Text) (i : Nat) (x : Text)
    (hi : isHeading (paras.getD i []) = false) :
    ((paras.filter isHeading).Sublist ((paras.set i x).filter isHeading)) := by
  refine filter_heading_sublist_pointwise paras (paras.set i x) (by simp) ?_
  intro j _ hj
  have hne : i ≠ j := by
    intro he
    rw [he] at hi
    rw [hi] at hj
    exact absurd hj (by simp)
  exact getD_set_ne paras i j x hne

/-- C7: character-count enforcement preserves every heading paragraph
verbatim and in the original relative order.  In all three branches of
`force_limit_char_count` and of `_enforce_exact_char_count_v2`, the input's
heading paragraphs appear, unchanged and in order, among the output's
paragraph list: within range the text is returned untouched; over range the
reassembly walk re-emits every collected heading at its slot; under range
only the last non-heading paragraph is extended; `v2` edits only non-heading
indices. -/
theorem c7_headings_preserved (nounsF : Text → List Text) (rnd : Nat → Nat)
    (content : Text) (targetMin targetMax target tol : Nat) :
    ((charCount content ≤ targetMax ∧ targetMin ≤ charCount content) →
        forceLimitCharCount nounsF rnd content targetMin targetMax = content)
  ∧ (targetMax < charCount content →
        forceLimitCharCount nounsF rnd content targetMin targetMax
          = joinNN (forceLimitOverParts content targetMin targetMax)
      ∧ ((splitParas content).filter isHeading).Sublist
          ((forceLimitOverParts content targetMin targetMax).filter isHeading))
  ∧ (charCount content < targetMin → charCount content ≤ targetMax →
        forceLimitCharCount nounsF rnd content targetMin targetMax
          = joinNN (forceLimitUnderParts nounsF rnd content targetMin targetMax)
      ∧ ((splitParas content).filter isHeading).Sublist
          ((forceLimitUnderParts nounsF rnd content targetMin targetMax).filter isHeading))
  ∧ ((target - tol ≤ charCount content ∧ charCount content ≤ target + tol) →
        enforceCharCountV2 nounsF rnd content target tol = content)
  ∧ (¬(target - tol ≤ charCount content ∧ charCount content ≤ target + tol) →
        enforceCharCountV2 nounsF rnd content target tol
          = joinNN (enforceCharCountV2Parts nounsF rnd content target tol))
  ∧ ((splitParas content).filter isHeading).Sublist
        ((enforceCharCountV2Parts nounsF rnd content target tol).filter isHeading) := by
  refine ⟨?_, ?_, ?_, ?_, ?_, ?_⟩
  · intro h
    unfold forceLimitCharCount
    simp only [h, and_self, if_true]
  · intro h
    constructor
    · unfold forceLimitCharCount
      rw [if_neg (by omega), if_pos h]
    · unfold forceLimitOverParts
      simp only []
      refine sublist_filter_of_all
        (flReassemble_heads (splitParas content) _ _ (le_refl _)) ?_
      intro x hx
      exact (List.mem_filter.mp hx).2
  · intro h1 h2
    constructor
    · unfold forceLimitCharCount
      rw [if_neg (by omega), if_neg (by omega), if_pos h1]
    · unfold forceLimitUnderParts
      cases hl : lastNonHeadingIdx (splitParas content) with
      | none => simp only [hl]; exact List.Sublist.refl _
      | some i =>
        simp only [hl]
        exact filter_heading_set_nonheading _ i _
          (lastNonHeadingIdx_nonheading _ i hl)
  · intro h
    unfold enforceCharCountV2
    rw [if_pos h]
  · intro h
    unfold enforceCharCountV2
    rw [if_neg h]
  · unfold enforceCharCountV2Parts
    by_cases h1 : charCount content < target - tol
    · simp only [h1, if_true]
      unfold expandLastPara
      cases hl : lastNonHeadingIdx (splitParas content) with
      | none => simp only [hl]; exact List.Sublist.refl _
      | some i =>
        simp only [hl]
        exact filter_heading_set_nonheading _ i _
          (lastNonHeadingIdx_nonheading _ i hl)
    · by_cases h2 : target + tol < charCount content
      · simp only [h1, h2, if_false, if_true]
        refine filter_heading_sublist_pointwise _ _
          (v2ReduceAssign_bound _ _ _).2 ?_
        intro j _ hj
        refine v2ReduceAssign_pointwise _ _ (splitParas content) (splitParas content)
          ?_ (fun _ _ => rfl) j hj
        intro pr hpr
        exact v2Lens_nonheading (splitParas content) pr
          ((mem_sortDescBy _ _).mp hpr)
      · simp only [h1, h2, if_false]
        exact List.Sublist.refl _

/-- Witness for C7 at concrete inputs exercising the three branches of each
function: a heading followed by a long body (over range), a short text
(under range), and an in-range text. -/
theorem c7_headings_preserved_witness :
    ((charCount "ab".data ≤ 5 ∧ 1 ≤ charCount "ab".data) ∧
      forceLimitCharCount (fun _ => []) (fun _ => 0) "ab".data 1 5 = "ab".data)
  ∧ (5 < charCount "# T\n\naaaa. bbbbbb".data ∧
      ((splitParas "# T\n\naaaa. bbbbbb".data).filter isHeading).Sublist
        ((forceLimitOverParts "# T\n\naaaa. bbbbbb".data 1 5).filter isHeading))
  ∧ (charCount "# T\n\nab".data < 20 ∧ charCount "# T\n\nab".data ≤ 30 ∧
      ((splitParas "# T\n\nab".data).filter isHeading).Sublist
        ((forceLimitUnderParts (fun _ => []) (fun _ => 0)
          "# T\n\nab".data 20 30).filter isHeading))
  ∧ ((splitParas "# T\n\nab".data).filter isHeading).Sublist
        ((enforceCharCountV2Parts (fun _ => []) (fun _ => 0)
          "# T\n\nab".data 4 1).filter isHeading) :=
  ⟨⟨⟨by decide, by decide⟩,
    (c7_headings_preserved (fun _ => []) (fun _ => 0) "ab".data 1 5 0 0).1
      ⟨by decide, by decide⟩⟩,
   ⟨by decide,
    ((c7_headings_preserved (fun _ => []) (fun _ => 0) "# T\n\naaaa. bbbbbb".data
      1 5 0 0).2.1 (by decide)).2⟩,
   ⟨by decide, by decide,
    ((c7_headings_preserved (fun _ => []) (fun _ => 0) "# T\n\nab".data
      20 30 0 0).2.2.1 (by decide) (by decide)).2⟩,
   (c7_headings_preserved (fun _ => []) (fun _ => 0) "# T\n\nab".data
      0 0 4 1).2.2.2.2.2⟩

/- ------------------------------------------------------------------ -/
/- Core theory for the occurrence-floor claims (C3, C10): a word whose
   characters all belong to a single script class (Hangul, or word
   characters), scanned with neighbour-not-in-class boundaries.        -/
/- ------------------------------------------------------------------ -/

/-- Class-based lookbehind: the previous character must not be in the class. -/
def clsPrevOk (cls : Char → Bool) : Option Char → Bool
  | none => true
  | some c => !cls c

/-- Class-based lookahead: the next character must not be in the class. -/
def clsNextOk (cls : Char → Bool) : Text → Bool
  | [] => true
  | c :: _ => !cls c

/-- Words of a single script class: nonempty, every character in the class,
and the source's boundary checks coincide with the class-based ones. -/
structure UniformClass (word : Text) (cls : Char → Bool) : Prop where
  ne : word ≠ []
  all : word.all cls = true
  prevEq : ∀ prev, prevBoundaryOk word prev = clsPrevOk cls prev
  nextEq : ∀ rest, nextBoundaryOk word rest = clsNextOk cls rest

/-- Hangul-containing morphemes: the source uses the `(?<![가-힣])…(?![가-힣])`
pattern, which is exactly the class-based boundary for `isHangul`. -/
theorem uniformClass_hangul (w : Text) (hne : w ≠ []) (hall : w.all isHangul = true) :
    UniformClass w isHangul := by
  have hany : w.any isHangul = true := by
    cases w with
    | nil => exact absurd rfl hne
    | cons c rest =>
      have hc := (List.all_eq_true.mp hall) c (by simp)
      simp [List.any_cons, hc]
  refine ⟨hne, hall, ?_, ?_⟩
  · intro prev
    cases prev <;> simp [prevBoundaryOk, clsPrevOk, hany]
  · intro rest
    cases rest <;> simp [nextBoundaryOk, clsNextOk, hany]

/-- Alphanumeric (non-Hangul) morphemes: the source uses `\b…\b`, which for a
word made of word characters is the class-based boundary for `isWordChar`. -/
theorem uniformClass_word (w : Text) (hne : w ≠ [])
    (hall : w.all isWordChar = true) (hnh : w.any isHangul = false) :
    UniformClass w isWordChar := by
  refine ⟨hne, hall, ?_, ?_⟩
  · intro prev
    cases w with
    | nil => exact absurd rfl hne
    | cons w0 w2 =>
      have h0 : isWordChar w0 = true := (List.all_eq_true.mp hall) w0 (by simp)
      cases prev with
      | none => simp [prevBoundaryOk, clsPrevOk, hnh, h0]
      | some c =>
        simp only [prevBoundaryOk, hnh, Bool.false_eq_true, if_false, List.head?_cons,
          clsPrevOk, h0]
        cases hc : isWordChar c <;> simp [hc]
  · intro rest
    have hlast : ∃ wl, w.getLast? = some wl ∧ isWordChar wl = true := by
      cases hw : w.getLast? with
      | none => exact absurd (List.getLast?_eq_none_iff.mp hw) hne
      | some wl =>
        refine ⟨wl, rfl, ?_⟩
        exact (List.all_eq_true.mp hall) wl (mem_of_getLastQ hw)
    obtain ⟨wl, hwl, hwlc⟩ := hlast
    cases rest with
    | nil => simp [nextBoundaryOk, clsNextOk, hnh, hwl, hwlc]
    | cons c cs =>
      simp only [nextBoundaryOk, hnh, Bool.false_eq_true, if_false, hwl,
        clsNextOk, hwlc]
      cases hc : isWordChar c <;> simp [hc]

/-- Effective previous character before a candidate match that follows the
(possibly empty) filler `u`: the last character of `u`, or `prev` when `u` is
empty; the boundary demands it not be in the class. -/
def lastNHc (cls : Char → Bool) (prev : Option Char) (u : Text) : Bool :=
  match u.getLast? with
  | some c => !cls c
  | none => clsPrevOk cls prev

theorem lastNHc_cons (cls : Char → Bool) (prev : Option Char) (c : Char) (f2 : Text) :
    lastNHc cls prev (c :: f2) = lastNHc cls (some c) f2 := by
  cases f2 with
  | nil => simp [lastNHc, clsPrevOk]
  | cons d rest =>
    cases h : (d :: rest).getLast? with
    | none => exact absurd (List.getLast?_eq_none_iff.mp h) (by simp)
    | some e => simp [lastNHc, List.getLast?_cons_cons, h]

/-- `t` contains `n` disjoint occurrences of `w`, each preceded by an
effective previous character outside the class and followed by a character
outside the class (or the end of text). -/
inductive KeptChain (cls : Char → Bool) (w : Text) : Option Char → Text → Nat → Prop
  | nil (prev : Option Char) (t : Text) : KeptChain cls w prev t 0
  | cons (prev : Option Char) (f rest : Text) (n : Nat) :
      lastNHc cls prev f = true →
      clsNextOk cls rest = true →
      KeptChain cls w w.getLast? rest n →
      KeptChain cls w prev (f ++ w ++ rest) (n + 1)

theorem scanSegsAux_cons_pos (w : Text) (fuel : Nat) (prev : Option Char)
    (acc : Text) (c : Char) (rest : Text)
    (h : (w.isPrefixOf (c :: rest) && prevBoundaryOk w prev
        && nextBoundaryOk w ((c :: rest).drop w.length)) = true) :
    scanSegsAux w (fuel + 1) prev acc (c :: rest)
      = acc.reverse :: scanSegsAux w fuel w.getLast? [] ((c :: rest).drop w.length) := by
  simp [scanSegsAux, h]

theorem scanSegsAux_cons_neg (w : Text) (fuel : Nat) (prev : Option Char)
    (acc : Text) (c : Char) (rest : Text)
    (h : (w.isPrefixOf (c :: rest) && prevBoundaryOk w prev
        && nextBoundaryOk w ((c :: rest).drop w.length)) = false) :
    scanSegsAux w (fuel + 1) prev acc (c :: rest)
      = scanSegsAux w fuel (some c) (c :: acc) rest := by
  simp [scanSegsAux, h]

theorem scanSegsAux_length_pos (w : Text) (fuel : Nat) : ∀ (prev : Option Char)
    (acc t : Text), 1 ≤ (scanSegsAux w fuel prev acc t).length := by
  induction fuel with
  | zero => intro prev acc t; simp [scanSegsAux]
  | succ fuel ih =>
    intro prev acc t
    cases t with
    | nil => simp [scanSegsAux]
    | cons c rest =>
      cases h : (w.isPrefixOf (c :: rest) && prevBoundaryOk w prev
          && nextBoundaryOk w ((c :: rest).drop w.length)) with
      | true => rw [scanSegsAux_cons_pos w fuel prev acc c rest h]; simp
      | false => rw [scanSegsAux_cons_neg w fuel prev acc c rest h]; exact ih _ _ _

theorem getLastQ_drop : ∀ (l : Text) (k : Nat), k < l.length →
    (l.drop k).getLast? = l.getLast? := by
  intro l
  induction l with
  | nil => intro k h; simp at h
  | cons c rest ih =>
    intro k h
    cases k with
    | zero => simp
    | succ k2 =>
      simp only [List.length_cons, Nat.succ_lt_succ_iff] at h
      have hne : rest ≠ [] := by
        intro he; rw [he] at h; simp at h
      rw [List.drop_succ_cons]
      rw [ih k2 h]
      cases rest with
      | nil => exact absurd rfl hne
      | cons d rest2 => simp [List.getLast?_cons_cons]

/-- A prefix occurrence of an all-in-class word cannot reach past the last
character of a filler that ends with an out-of-class character. -/
theorem prefix_covers_last {cls : Char → Bool} {w f v s : Text} {d : Char}
    (hall : w.all cls = true) (heq : f ++ v = w ++ s)
    (hfl : f.getLast? = some d) (hd : cls d = false)
    (hlen : f.length ≤ w.length) : False := by
  have hfne : f ≠ [] := by
    intro he; rw [he] at hfl; simp at hfl
  have hflen : 0 < f.length := List.length_pos.mpr hfne
  have h1 : (f ++ v)[f.length - 1]? = f[f.length - 1]? :=
    List.getElem?_append_left (by omega)
  have h2 : (w ++ s)[f.length - 1]? = w[f.length - 1]? :=
    List.getElem?_append_left (by omega)
  have h3 : f[f.length - 1]? = some d := by
    rw [← List.getLast?_eq_getElem?]; exact hfl
  have h4 : w[f.length - 1]? = some d := by
    rw [← h2, ← heq, h1, h3]
  have h5 : d ∈ w := List.getElem?_mem h4
  have h6 : cls d = true := (List.all_eq_true.mp hall) d h5
  rw [h6] at hd
  exact absurd hd (by simp)

/-- Core lower bound: a text carrying a kept chain of `n` occurrences yields
at least `n` matches under the source's scan, whatever accumulated segment
and fuel bound are in force. -/
theorem keptChain_scan_le (cls : Char → Bool) (w : Text) (hu : UniformClass w cls) :
    ∀ (fuel : Nat) (prev : Option Char) (acc t : Text) (n : Nat),
      KeptChain cls w prev t n → t.length ≤ fuel →
      n + 1 ≤ (scanSegsAux w fuel prev acc t).length := by
  intro fuel
  induction fuel using Nat.strong_induction_on with
  | _ fuel ih =>
    intro prev acc t n hchain hlen
    cases hchain with
    | nil => exact scanSegsAux_length_pos w fuel prev acc t
    | cons prev f rest n hlast hnext hsub =>
      rcases hwc : w with _ | ⟨w0, w2⟩
      · exact absurd hwc hu.ne
      subst hwc
      cases f with
      | nil =>
        have ht : ([] : Text) ++ (w0 :: w2) ++ rest = w0 :: (w2 ++ rest) := by simp
        rw [ht] at hlen ⊢
        cases fuel with
        | zero => simp at hlen
        | succ fuel1 =>
          have hdrop : (w0 :: (w2 ++ rest)).drop (w0 :: w2).length = rest := by
            have he : (w0 :: w2) ++ rest = w0 :: (w2 ++ rest) := by simp
            rw [← he, List.drop_left]
          have hcond : ((w0 :: w2).isPrefixOf (w0 :: (w2 ++ rest))
              && prevBoundaryOk (w0 :: w2) prev
              && nextBoundaryOk (w0 :: w2) ((w0 :: (w2 ++ rest)).drop (w0 :: w2).length)) = true := by
            have hp : (w0 :: w2).isPrefixOf (w0 :: (w2 ++ rest)) = true :=
              List.isPrefixOf_iff_prefix.mpr ⟨rest, by simp⟩
            have hprev : prevBoundaryOk (w0 :: w2) prev = true := by
              rw [hu.prevEq prev]
              simpa [lastNHc] using hlast
            have hnextb : nextBoundaryOk (w0 :: w2) rest = true := by
              rw [hu.nextEq rest]; exact hnext
            rw [hdrop]
            simp [hp, hprev, hnextb]
          rw [scanSegsAux_cons_pos _ fuel1 prev acc _ _ hcond, hdrop]
          have hrec := ih fuel1 (by omega) (w0 :: w2).getLast? [] rest n hsub
            (by simp at hlen; omega)
          simp only [List.length_cons]
          omega
      | cons c f2 =>
        have ht : ((c :: f2) ++ (w0 :: w2)) ++ rest
            = c :: ((f2 ++ (w0 :: w2)) ++ rest) := by simp
        rw [ht] at hlen ⊢
        cases fuel with
        | zero => simp at hlen
        | succ fuel1 =>
          cases hcond : ((w0 :: w2).isPrefixOf (c :: ((f2 ++ (w0 :: w2)) ++ rest))
              && prevBoundaryOk (w0 :: w2) prev
              && nextBoundaryOk (w0 :: w2)
                ((c :: ((f2 ++ (w0 :: w2)) ++ rest)).drop (w0 :: w2).length)) with
          | false =>
            rw [scanSegsAux_cons_neg _ fuel1 _ _ _ _ hcond]
            have hchain2 : KeptChain cls (w0 :: w2) (some c)
                ((f2 ++ (w0 :: w2)) ++ rest) (n + 1) :=
              KeptChain.cons (some c) f2 rest n
                (by rw [← lastNHc_cons]; exact hlast) hnext hsub
            exact ih fuel1 (by omega) _ _ _ _ hchain2 (by simp at hlen ⊢; omega)
          | true =>
            have hp : (w0 :: w2).isPrefixOf (c :: ((f2 ++ (w0 :: w2)) ++ rest)) = true := by
              have hsplit := Bool.and_eq_true_iff.mp hcond
              exact (Bool.and_eq_true_iff.mp hsplit.1).1
            obtain ⟨d, hdl, hdc⟩ : ∃ d, (c :: f2).getLast? = some d ∧ cls d = false := by
              cases hl : (c :: f2).getLast? with
              | none =>
                exact absurd (List.getLast?_eq_none_iff.mp hl) (by simp)
              | some d =>
                refine ⟨d, rfl, ?_⟩
                have := hlast
                rw [lastNHc, hl] at this
                simpa using this
            obtain ⟨s, hs⟩ := List.isPrefixOf_iff_prefix.mp hp
            have heq : (c :: f2) ++ ((w0 :: w2) ++ rest) = (w0 :: w2) ++ s := by
              rw [hs]; simp
            have hlt : (w0 :: w2).length < (c :: f2).length := by
              by_contra hle
              exact prefix_covers_last hu.all heq hdl hdc (by omega)
            rw [scanSegsAux_cons_pos _ fuel1 _ _ _ _ hcond]
            have hdropeq : (c :: ((f2 ++ (w0 :: w2)) ++ rest)).drop (w0 :: w2).length
                = ((c :: f2).drop (w0 :: w2).length ++ (w0 :: w2)) ++ rest := by
              have h1 : c :: ((f2 ++ (w0 :: w2)) ++ rest)
                  = (c :: f2) ++ ((w0 :: w2) ++ rest) := by simp
              rw [h1, List.drop_append_of_le_length (by omega)]
              simp
            rw [hdropeq]
            have hchain2 : KeptChain cls (w0 :: w2) ((w0 :: w2).getLast?)
                (((c :: f2).drop (w0 :: w2).length ++ (w0 :: w2)) ++ rest) (n + 1) := by
              refine KeptChain.cons _ _ _ n ?_ hnext hsub
              have hgl : ((c :: f2).drop (w0 :: w2).length).getLast?
                  = (c :: f2).getLast? := getLastQ_drop _ _ hlt
              rw [lastNHc, hgl, hdl]
              simp [hdc]
            have hlen2 : (((c :: f2).drop (w0 :: w2).length ++ (w0 :: w2)) ++ rest).length
                ≤ fuel1 := by
              simp only [List.length_append, List.length_drop, List.length_cons] at hlen ⊢
              omega
            have hrec := ih fuel1 (by omega) ((w0 :: w2).getLast?) []
              (((c :: f2).drop (w0 :: w2).length ++ (w0 :: w2)) ++ rest) (n + 1)
              hchain2 hlen2
            have hlc : (acc.reverse :: scanSegsAux (w0 :: w2) fuel1 ((w0 :: w2).getLast?) []
                (((c :: f2).drop (w0 :: w2).length ++ (w0 :: w2)) ++ rest)).length
              = (scanSegsAux (w0 :: w2) fuel1 ((w0 :: w2).getLast?) []
                (((c :: f2).drop (w0 :: w2).length ++ (w0 :: w2)) ++ rest)).length + 1 := rfl
            rw [hlc]
            omega

/-- Count form of the lower bound, at the top-level scan parameters. -/
theorem keptChain_le_countExact (cls : Char → Bool) (w : Text)
    (hu : UniformClass w cls) (t : Text) (n : Nat)
    (h : KeptChain cls w none t n) : n ≤ countExactWord w t := by
  unfold countExactWord scanSegs
  rw [if_neg (by simpa [List.isEmpty_iff] using hu.ne)]
  have hle := keptChain_scan_le cls w hu (tlen t) none [] t n h (by rw [tlen_eq])
  omega

/-- Reassembly of a segment list: the segments interleaved with the word.
`scanSegs` splits the text at the matches; gluing the segments back with the
word at every internal boundary recovers the text. -/
def reassemble (w : Text) : List Text → Text
  | [] => []
  | [s] => s
  | s :: s2 :: rest => s ++ w ++ reassemble w (s2 :: rest)

/-- Well-formed segment lists: every internal boundary is a genuine match of
the scanner, so the effective character before it (last of the filler, or the
tracked previous character) lies outside the class, and the reassembled
remainder after it starts outside the class (or is empty). -/
inductive SegsWF (cls : Char → Bool) (w : Text) : Option Char → List Text → Prop
  | last (prev : Option Char) (s : Text) : SegsWF cls w prev [s]
  | step (prev : Option Char) (f : Text) (rest : List Text)
      (hf : lastNHc cls prev f = true)
      (hn : clsNextOk cls (reassemble w rest) = true)
      (hs : SegsWF cls w w.getLast? rest) :
      SegsWF cls w prev (f :: rest)

/-- Soundness of the scanner: the returned segments reassemble to the scanned
text, and every internal boundary passes the class-based checks.  The
invariant says the tracked `prev` summarises the ghost prefix `P0` followed by
the pending accumulator. -/
theorem scanSegsAux_sound (cls : Char → Bool) (w : Text) (hu : UniformClass w cls)
    (fuel : Nat) : ∀ (prev P0 : Option Char) (acc t : Text), t.length ≤ fuel →
    (∀ u, lastNHc cls P0 (acc.reverse ++ u) = lastNHc cls prev u) →
    reassemble w (scanSegsAux w fuel prev acc t) = acc.reverse ++ t ∧
    SegsWF cls w P0 (scanSegsAux w fuel prev acc t) := by
  induction fuel with
  | zero =>
    intro prev P0 acc t hlen hinv
    have ht : t = [] := List.eq_nil_of_length_eq_zero (by omega)
    subst ht
    exact ⟨by simp [scanSegsAux, reassemble], SegsWF.last P0 acc.reverse⟩
  | succ fuel1 ih =>
    intro prev P0 acc t hlen hinv
    cases t with
    | nil => exact ⟨by simp [scanSegsAux, reassemble], SegsWF.last P0 acc.reverse⟩
    | cons c rest =>
      cases hcond : (w.isPrefixOf (c :: rest) && prevBoundaryOk w prev
          && nextBoundaryOk w ((c :: rest).drop w.length)) with
      | false =>
        rw [scanSegsAux_cons_neg w fuel1 prev acc c rest hcond]
        have hinv2 : ∀ u, lastNHc cls P0 ((c :: acc).reverse ++ u)
            = lastNHc cls (some c) u := by
          intro u
          have h1 : (c :: acc).reverse ++ u = acc.reverse ++ (c :: u) := by simp
          rw [h1, hinv (c :: u), lastNHc_cons]
        obtain ⟨h1, h2⟩ := ih (some c) P0 (c :: acc) rest (by simp at hlen ⊢; omega) hinv2
        refine ⟨?_, h2⟩
        rw [h1]
        simp
      | true =>
        rw [scanSegsAux_cons_pos w fuel1 prev acc c rest hcond]
        have hsplit := Bool.and_eq_true_iff.mp hcond
        have hp : w.isPrefixOf (c :: rest) = true := (Bool.and_eq_true_iff.mp hsplit.1).1
        have hprev : prevBoundaryOk w prev = true := (Bool.and_eq_true_iff.mp hsplit.1).2
        have hnext : nextBoundaryOk w ((c :: rest).drop w.length) = true := hsplit.2
        obtain ⟨s, hs⟩ := List.isPrefixOf_iff_prefix.mp hp
        have hdrop : (c :: rest).drop w.length = s := by
          rw [← hs, List.drop_left]
        have hwne : w ≠ [] := hu.ne
        have hwpos : 1 ≤ w.length := by
          cases w with
          | nil => exact absurd rfl hwne
          | cons _ _ => simp
        have hslen : s.length ≤ fuel1 := by
          have := congrArg List.length hs
          simp at this hlen
          omega
        obtain ⟨h1, h2⟩ := ih w.getLast? w.getLast? [] ((c :: rest).drop w.length)
          (by rw [hdrop]; exact hslen) (by intro u; simp)
        have hlpos := scanSegsAux_length_pos w fuel1 w.getLast? [] ((c :: rest).drop w.length)
        constructor
        · cases htail : scanSegsAux w fuel1 w.getLast? [] ((c :: rest).drop w.length) with
          | nil => rw [htail] at hlpos; simp at hlpos
          | cons s1 ss =>
            rw [htail] at h1
            show acc.reverse ++ w ++ reassemble w (s1 :: ss) = acc.reverse ++ (c :: rest)
            rw [h1, hdrop, ← hs]
            simp
        · refine SegsWF.step P0 acc.reverse _ ?_ ?_ h2
          · have h0 := hinv []
            rw [List.append_nil] at h0
            rw [h0]
            rw [hu.prevEq prev] at hprev
            simpa [lastNHc] using hprev
          · rw [h1]
            rw [hu.nextEq] at hnext
            exact hnext

/-- At the top level of `scanSegs`: the segments reassemble to the input and
are well formed with no character before the first segment. -/
theorem scanSegs_wf (cls : Char → Bool) (w : Text) (hu : UniformClass w cls)
    (t : Text) :
    reassemble w (scanSegs w t) = t ∧ SegsWF cls w none (scanSegs w t) := by
  have h := scanSegsAux_sound cls w hu (tlen t) none none [] t
    (by rw [tlen_eq]) (by intro u; simp)
  simpa [scanSegs] using h

/-- Rebuilding a segment decomposition after replacement: boundary `i` keeps
the word when `dropb i = false` and otherwise receives the replacement text
`repl i`.  The source replaces the selected matches right-to-left by position,
which leaves the positions of the remaining matches unchanged, so the result
is exactly this per-boundary substitution on the segment decomposition. -/
def rebuildSegs (w : Text) (repl : Nat → Text) (dropb : Nat → Bool) :
    Nat → List Text → Text
  | _, [] => []
  | _, [s] => s
  | i, s :: s2 :: rest =>
    s ++ (if dropb i then repl i else w) ++ rebuildSegs w repl dropb (i + 1) (s2 :: rest)

/-- Number of boundaries kept (not dropped) among indices `i, …, i+n-1`. -/
def keptFrom (dropb : Nat → Bool) : Nat → Nat → Nat
  | _, 0 => 0
  | i, n + 1 => (if dropb i then 0 else 1) + keptFrom dropb (i + 1) n

/-- Number of boundaries dropped among indices `i, …, i+n-1`. -/
def droppedFrom (dropb : Nat → Bool) : Nat → Nat → Nat
  | _, 0 => 0
  | i, n + 1 => (if dropb i then 1 else 0) + droppedFrom dropb (i + 1) n

theorem keptFrom_add_droppedFrom (dropb : Nat → Bool) :
    ∀ (n i : Nat), keptFrom dropb i n + droppedFrom dropb i n = n := by
  intro n
  induction n with
  | zero => intro i; rfl
  | succ m ihm =>
    intro i
    have h := ihm (i + 1)
    show ((if dropb i then 0 else 1) + keptFrom dropb (i + 1) m)
        + ((if dropb i then 1 else 0) + droppedFrom dropb (i + 1) m) = m + 1
    cases hd : dropb i <;> simp [hd] <;> omega

theorem droppedFrom_congr (p q : Nat → Bool) (hpq : ∀ j, p j = q j) :
    ∀ (n i : Nat), droppedFrom p i n = droppedFrom q i n := by
  intro n
  induction n with
  | zero => intro i; rfl
  | succ m ihm =>
    intro i
    show (if p i then 1 else 0) + droppedFrom p (i + 1) m
        = (if q i then 1 else 0) + droppedFrom q (i + 1) m
    rw [hpq i, ihm (i + 1)]

theorem droppedFrom_false : ∀ (n i : Nat), droppedFrom (fun _ => false) i n = 0 := by
  intro n
  induction n with
  | zero => intro i; rfl
  | succ m ihm =>
    intro i
    have h := ihm (i + 1)
    simp [droppedFrom, h]

theorem droppedFrom_zero_of_lt (c : Nat) : ∀ (n i : Nat), c < i →
    droppedFrom (fun j => decide (j = c)) i n = 0 := by
  intro n
  induction n with
  | zero => intro i _; rfl
  | succ m ihm =>
    intro i hci
    show (if decide (i = c) then 1 else 0)
        + droppedFrom (fun j => decide (j = c)) (i + 1) m = 0
    rw [if_neg (by simp; omega), ihm (i + 1) (by omega)]

theorem droppedFrom_single_le (c : Nat) : ∀ (n i : Nat),
    droppedFrom (fun j => decide (j = c)) i n ≤ 1 := by
  intro n
  induction n with
  | zero => intro i; exact Nat.zero_le 1
  | succ m ihm =>
    intro i
    show (if decide (i = c) then 1 else 0)
        + droppedFrom (fun j => decide (j = c)) (i + 1) m ≤ 1
    by_cases h : i = c
    · rw [if_pos (by simp [h]), droppedFrom_zero_of_lt c m (i + 1) (by omega)]
    · rw [if_neg (by simp [h])]
      have := ihm (i + 1)
      omega

theorem droppedFrom_mem_cons_le (c : Nat) (cs : List Nat) : ∀ (n i : Nat),
    droppedFrom (fun j => decide (j ∈ c :: cs)) i n
      ≤ droppedFrom (fun j => decide (j = c)) i n
        + droppedFrom (fun j => decide (j ∈ cs)) i n := by
  intro n
  induction n with
  | zero => intro i; exact Nat.zero_le _
  | succ m ihm =>
    intro i
    have h := ihm (i + 1)
    show (if decide (i ∈ c :: cs) then 1 else 0)
        + droppedFrom (fun j => decide (j ∈ c :: cs)) (i + 1) m
      ≤ ((if decide (i = c) then 1 else 0)
          + droppedFrom (fun j => decide (j = c)) (i + 1) m)
        + ((if decide (i ∈ cs) then 1 else 0)
          + droppedFrom (fun j => decide (j ∈ cs)) (i + 1) m)
    by_cases h1 : i = c
    · rw [if_pos (by simp [h1]), if_pos (by simp [h1])]
      omega
    · by_cases h2 : i ∈ cs
      · rw [if_pos (by simp [h2]), if_neg (by simp [h1]), if_pos (by simp [h2])]
        omega
      · rw [if_neg (by simp [h1, h2]), if_neg (by simp [h1]), if_neg (by simp [h2])]
        omega

/-- The number of dropped boundaries is at most the length of the index list
driving the drops (duplicate or out-of-range indices only lower it). -/
theorem droppedFrom_mem_le (idxs : List Nat) : ∀ (n i : Nat),
    droppedFrom (fun j => decide (j ∈ idxs)) i n ≤ idxs.length := by
  induction idxs with
  | nil =>
    intro n i
    rw [droppedFrom_congr _ (fun _ => false) (by intro j; simp) n i,
      droppedFrom_false n i]
    exact Nat.zero_le _
  | cons c cs ihc =>
    intro n i
    have h1 := droppedFrom_mem_cons_le c cs n i
    have h2 := droppedFrom_single_le c n i
    have h3 := ihc n i
    have hl : (c :: cs).length = cs.length + 1 := by simp
    omega

/-- A chain whose effective previous character is the word's own last
character (which sits inside the class) starts with a nonempty filler, so any
text may be prepended without disturbing the chain. -/
theorem keptChain_prepend (cls : Char → Bool) (w : Text)
    (hwl : clsPrevOk cls w.getLast? = false) (X t : Text) (n : Nat)
    (P : Option Char) (h : KeptChain cls w w.getLast? t n) :
    KeptChain cls w P (X ++ t) n := by
  cases h with
  | nil => exact KeptChain.nil P (X ++ t)
  | cons prev f rest m hf hn hsub =>
    cases f with
    | nil =>
      have hc : lastNHc cls w.getLast? ([] : Text) = clsPrevOk cls w.getLast? := rfl
      rw [hc, hwl] at hf
      exact absurd hf (by simp)
    | cons c f2 =>
      have hg : (X ++ (c :: f2)).getLast? = (c :: f2).getLast? :=
        List.getLast?_append_of_ne_nil X (by simp)
      cases hcl : (c :: f2).getLast? with
      | none => exact absurd (List.getLast?_eq_none_iff.mp hcl) (by simp)
      | some d =>
        have hd : (!cls d) = true := by
          rw [lastNHc, hcl] at hf
          exact hf
        have hf2 : lastNHc cls P (X ++ (c :: f2)) = true := by
          rw [lastNHc, hg, hcl]
          exact hd
        have he : X ++ ((c :: f2) ++ w ++ rest) = (X ++ (c :: f2)) ++ w ++ rest := by
          simp
        rw [he]
        exact KeptChain.cons P (X ++ (c :: f2)) rest m hf2 hn hsub

/-- The rebuilt remainder starts with the same character as the reassembled
remainder: the first segment is either nonempty (same head) or, were it empty,
the reassembled remainder would start with the word's own in-class first
character, contradicting the recorded lookahead. -/
theorem clsNextOk_rebuild (cls : Char → Bool) (w : Text) (repl : Nat → Text)
    (dropb : Nat → Bool) (hw : clsNextOk cls w = false) :
    ∀ (rest : List Text) (j : Nat), clsNextOk cls (reassemble w rest) = true →
    clsNextOk cls (rebuildSegs w repl dropb j rest) = true := by
  intro rest j hn
  cases rest with
  | nil => exact hn
  | cons s rest2 =>
    cases rest2 with
    | nil => exact hn
    | cons s2 more =>
      cases s with
      | nil =>
        exfalso
        cases w with
        | nil => simp [clsNextOk] at hw
        | cons w0 w2 =>
          have hn2 : clsNextOk cls (([] : Text) ++ (w0 :: w2)
              ++ reassemble (w0 :: w2) (s2 :: more)) = true := hn
          simp [clsNextOk] at hn2 hw
          simp [hn2] at hw
      | cons c cs =>
        have hn2 : clsNextOk cls ((c :: cs) ++ w ++ reassemble w (s2 :: more)) = true := hn
        show clsNextOk cls ((c :: cs) ++ (if dropb j then repl j else w)
            ++ rebuildSegs w repl dropb (j + 1) (s2 :: more)) = true
        simp [clsNextOk] at hn2 ⊢
        exact hn2

/-- Rebuilding a well-formed segment list yields a text carrying one kept
occurrence per undropped boundary. -/
theorem segsWF_rebuild_chain (cls : Char → Bool) (w : Text) (repl : Nat → Text)
    (dropb : Nat → Bool) (hwl : clsPrevOk cls w.getLast? = false)
    (hw0 : clsNextOk cls w = false) :
    ∀ (segs : List Text) (prev : Option Char) (i : Nat),
    SegsWF cls w prev segs →
    KeptChain cls w prev (rebuildSegs w repl dropb i segs)
      (keptFrom dropb i (segs.length - 1)) := by
  intro segs
  induction segs with
  | nil => intro prev i h; cases h
  | cons f rest ihr =>
    intro prev i h
    cases h with
    | last => exact KeptChain.nil prev f
    | step _ _ _ hf hn hs =>
      cases rest with
      | nil => cases hs
      | cons s2 more =>
        have ih2 := ihr w.getLast? (i + 1) hs
        have hnext : clsNextOk cls (rebuildSegs w repl dropb (i + 1) (s2 :: more)) = true :=
          clsNextOk_rebuild cls w repl dropb hw0 (s2 :: more) (i + 1) hn
        cases hd : dropb i with
        | false =>
          have hre : rebuildSegs w repl dropb i (f :: s2 :: more)
              = f ++ w ++ rebuildSegs w repl dropb (i + 1) (s2 :: more) := by
            show f ++ (if dropb i then repl i else w) ++ _ = _
            rw [hd]
            simp
          have hcnt : keptFrom dropb i ((f :: s2 :: more).length - 1)
              = keptFrom dropb (i + 1) ((s2 :: more).length - 1) + 1 := by
            show (if dropb i then 0 else 1) + keptFrom dropb (i + 1) more.length
                = keptFrom dropb (i + 1) more.length + 1
            rw [hd, if_neg (by simp)]
            omega
          rw [hre, hcnt]
          exact KeptChain.cons prev f _ _ hf hnext ih2
        | true =>
          have hre : rebuildSegs w repl dropb i (f :: s2 :: more)
              = (f ++ repl i) ++ rebuildSegs w repl dropb (i + 1) (s2 :: more) := by
            show f ++ (if dropb i then repl i else w) ++ _ = _
            rw [hd]
            simp
          have hcnt : keptFrom dropb i ((f :: s2 :: more).length - 1)
              = keptFrom dropb (i + 1) ((s2 :: more).length - 1) := by
            show (if dropb i then 0 else 1) + keptFrom dropb (i + 1) more.length
                = keptFrom dropb (i + 1) more.length
            rw [hd, if_pos rfl]
            omega
          rw [hre, hcnt]
          exact keptChain_prepend cls w hwl (f ++ repl i) _ _ prev ih2

/- ------------------------------------------------------------------ -/
/- `_reduce_morpheme_aggressively` / `_reduce_general_morpheme`        -/
/- ------------------------------------------------------------------ -/

/-- Index selection shared by the two reduction methods.  Both keep occurrence
0: `_reduce_morpheme_aggressively` indexes `available_indices = [1, …,
total-1]` at `int(i*step)` with `step = (total-1)/actual`, and
`_reduce_general_morpheme` computes `1 + int(i*step)` over the same stride;
`int(i*step)` is the floor `(i*(total-1))/actual`.  Their fallback branches
(`len(available_indices) <= actual_remove`, `len(matches) <= actual_remove+1`)
both pick every index `1, …, total-1` under the same condition. -/
def reduceIndices (total actual : Nat) : List Nat :=
  if total - 1 ≤ actual then (List.range (total - 1)).map (fun m => 1 + m)
  else (List.range actual).map (fun i => 1 + (i * (total - 1)) / actual)

theorem reduceIndices_length (total actual : Nat) (h : actual ≤ total - 1) :
    (reduceIndices total actual).length = actual := by
  unfold reduceIndices
  by_cases hc : total - 1 ≤ actual
  · rw [if_pos hc]
    simp
    omega
  · rw [if_neg hc]
    simp

/-- Common core of `_reduce_morpheme_aggressively` and
`_reduce_general_morpheme`: they differ only in the floor `min_keep` (17
versus 5) and in the substitution list.  The matches of the boundary pattern
are the internal boundaries of `scanSegs`; the removal count is capped at
`total_matches - min_keep` (Python's `max(0, ...) `and `min`); when nothing
can be removed the content is returned unchanged; otherwise the selected
occurrences are replaced by substitutes drawn by the injected random oracle.
The source replaces by text position in descending index order, which on the
segment decomposition is the per-boundary substitution of `rebuildSegs`. -/
def reduceCore (minKeep : Nat) (rnd : Nat → Nat) (repls : List Text)
    (content morpheme : Text) (countToRemove : Nat) : Text :=
  let total := (scanSegs morpheme content).length - 1
  let actual := min countToRemove (total - minKeep)
  if actual = 0 then content
  else
    rebuildSegs morpheme (fun j => repls.getD (rnd j % repls.length) [])
      (fun j => decide (j ∈ reduceIndices total actual)) 0 (scanSegs morpheme content)

/-- `_reduce_morpheme_aggressively`: floor `min_keep = 17`, substitutes drawn
from `_get_enhanced_substitutions(morpheme)`. -/
def reduceMorphemeAggressively (rnd : Nat → Nat) (subsFor : Text → List Text)
    (content morpheme : Text) (countToRemove : Nat) : Text :=
  reduceCore 17 rnd (subsFor morpheme) content morpheme countToRemove

/-- `_reduce_general_morpheme`: floor `min_keep = 5`, substitutes drawn from
`_generate_simple_substitutions(morpheme)`. -/
def reduceGeneralMorpheme (rnd : Nat → Nat) (subsFor : Text → List Text)
    (content morpheme : Text) (countToRemove : Nat) : Text :=
  reduceCore 5 rnd (subsFor morpheme) content morpheme countToRemove

/-- How many occurrences the core replaces: the length of the selected index
list (zero when the guard returns the content unchanged). -/
def reduceReplaced (minKeep : Nat) (content morpheme : Text)
    (countToRemove : Nat) : Nat :=
  let total := (scanSegs morpheme content).length - 1
  let actual := min countToRemove (total - minKeep)
  if actual = 0 then 0 else (reduceIndices total actual).length

/-- When the current count is at or below the floor, nothing is removable and
the content is returned unchanged. -/
theorem reduceCore_unchanged (minKeep : Nat) (rnd : Nat → Nat) (repls : List Text)
    (content morpheme : Text) (k : Nat) (hne : morpheme ≠ [])
    (h : countExactWord morpheme content ≤ minKeep) :
    reduceCore minKeep rnd repls content morpheme k = content := by
  have hcnt : (scanSegs morpheme content).length - 1 ≤ minKeep := by
    rw [countExactWord, if_neg (by simpa [List.isEmpty_iff] using hne)] at h
    exact h
  simp only [reduceCore]
  rw [if_pos (show min k ((scanSegs morpheme content).length - 1 - minKeep) = 0 by omega)]

/-- The core always replaces exactly `min(requested, count - min_keep)`
occurrences. -/
theorem reduceReplaced_eq (minKeep : Nat) (content morpheme : Text) (k : Nat)
    (hmk : 1 ≤ minKeep) (hne : morpheme ≠ []) :
    reduceReplaced minKeep content morpheme k
      = min k (countExactWord morpheme content - minKeep) := by
  have hcnt : countExactWord morpheme content = (scanSegs morpheme content).length - 1 := by
    rw [countExactWord, if_neg (by simpa [List.isEmpty_iff] using hne)]
  simp only [reduceReplaced]
  rw [hcnt]
  by_cases hz : min k ((scanSegs morpheme content).length - 1 - minKeep) = 0
  · rw [if_pos hz]
    omega
  · rw [if_neg hz]
    exact reduceIndices_length _ _ (by omega)

/-- Floor invariant of the core: the reduced content keeps at least
`min(count, min_keep)` exact occurrences of the morpheme. -/
theorem reduceCore_floor (cls : Char → Bool) (morpheme : Text)
    (hu : UniformClass morpheme cls) (minKeep : Nat) (hmk : 1 ≤ minKeep)
    (rnd : Nat → Nat) (repls : List Text) (content : Text) (k : Nat) :
    min (countExactWord morpheme content) minKeep
      ≤ countExactWord morpheme (reduceCore minKeep rnd repls content morpheme k) := by
  have hwne : morpheme ≠ [] := hu.ne
  have hwl : clsPrevOk cls morpheme.getLast? = false := by
    cases hgl : morpheme.getLast? with
    | none => exact absurd (List.getLast?_eq_none_iff.mp hgl) hwne
    | some d =>
      have hd : cls d = true := (List.all_eq_true.mp hu.all) d (mem_of_getLastQ hgl)
      simp [clsPrevOk, hd]
  have hw0 : clsNextOk cls morpheme = false := by
    cases hw : morpheme with
    | nil => exact absurd hw hwne
    | cons w0 w2 =>
      have h0 : cls w0 = true :=
        (List.all_eq_true.mp hu.all) w0 (by rw [hw]; exact List.mem_cons_self w0 w2)
      simp [clsNextOk, h0]
  have hcnt : countExactWord morpheme content = (scanSegs morpheme content).length - 1 := by
    rw [countExactWord, if_neg (by simpa [List.isEmpty_iff] using hwne)]
  simp only [reduceCore]
  by_cases hz : min k ((scanSegs morpheme content).length - 1 - minKeep) = 0
  · rw [if_pos hz]
    exact Nat.min_le_left _ _
  · rw [if_neg hz]
    obtain ⟨hre, hwf⟩ := scanSegs_wf cls morpheme hu content
    have hchain := segsWF_rebuild_chain cls morpheme
      (fun j => repls.getD (rnd j % repls.length) [])
      (fun j => decide (j ∈ reduceIndices ((scanSegs morpheme content).length - 1)
        (min k ((scanSegs morpheme content).length - 1 - minKeep))))
      hwl hw0 (scanSegs morpheme content) none 0 hwf
    have hcount := keptChain_le_countExact cls morpheme hu _ _ hchain
    have hk := keptFrom_add_droppedFrom
      (fun j => decide (j ∈ reduceIndices ((scanSegs morpheme content).length - 1)
        (min k ((scanSegs morpheme content).length - 1 - minKeep))))
      ((scanSegs morpheme content).length - 1) 0
    have hd := droppedFrom_mem_le
      (reduceIndices ((scanSegs morpheme content).length - 1)
        (min k ((scanSegs morpheme content).length - 1 - minKeep)))
      ((scanSegs morpheme content).length - 1) 0
    have hil := reduceIndices_length ((scanSegs morpheme content).length - 1)
      (min k ((scanSegs morpheme content).length - 1 - minKeep)) (by omega)
    omega

/-- Concrete content for exercising the aggressive reduction: nineteen
space-delimited occurrences of the Hangul term. -/
def c3content : Text := (List.replicate 19 (' ' :: "전기".data)).flatten

/-- `morpheme in keyword or keyword in morpheme` of `_limit_all_morphemes`:
the morpheme occurs as a substring of the keyword or vice versa. -/
def isPartOfKeyword (morpheme keyword : Text) : Bool :=
  containsSub keyword morpheme || containsSub morpheme keyword

/-- One iteration of the sweep of `_limit_all_morphemes` (step 7): a morpheme
recorded with `count` occurrences above the ceiling of 20 is reduced by
`excess = count - 20` — aggressively (floor 17) when it is part of the
keyword, generally (floor 5) otherwise.  The recorded count is the one
computed when the over-limit list was built, while the reduction methods
re-scan the current content. -/
def limitAllStep (rnd : Nat → Nat) (subsA subsG : Text → List Text)
    (keyword : Text) (content : Text) (mc : Text × Nat) : Text :=
  if 20 < mc.2 then
    if isPartOfKeyword mc.1 keyword then
      reduceMorphemeAggressively rnd subsA content mc.1 (mc.2 - 20)
    else
      reduceGeneralMorpheme rnd subsG content mc.1 (mc.2 - 20)
  else content

/-- Step 7 of `_limit_all_morphemes`: the sweep folds the per-morpheme step
over the collected over-limit morphemes, threading the adjusted content. -/
def limitAllMorphemes (rnd : Nat → Nat) (subsA subsG : Text → List Text)
    (keyword content : Text) (morphemeCounts : List (Text × Nat)) : Text :=
  morphemeCounts.foldl (limitAllStep rnd subsA subsG keyword) content

/-- Claim C10 (implicit): each step of the limit-all sweep respects the
protective floor of the reduction method it invokes: the morpheme processed
last retains at least `min(current count, 17)` exact matches when it is part
of (or contains) the keyword and `min(current count, 5)` otherwise, whatever
the recorded excess; and a morpheme recorded at or below the ceiling of 20 is
not touched.  Holds for every single-script morpheme, keyword, prior sweep
prefix, recorded count and substitution draw. -/
theorem c10_limit_all_floor (rnd : Nat → Nat) (subsA subsG : Text → List Text)
    (keyword content : Text) (mcs : List (Text × Nat)) (morpheme : Text)
    (count : Nat)
    (hw : (morpheme ≠ [] ∧ morpheme.all isHangul = true)
      ∨ (morpheme ≠ [] ∧ morpheme.all isWordChar = true
          ∧ morpheme.any isHangul = false)) :
    (count ≤ 20 →
      limitAllMorphemes rnd subsA subsG keyword content (mcs ++ [(morpheme, count)])
        = limitAllMorphemes rnd subsA subsG keyword content mcs) ∧
    min (countExactWord morpheme (limitAllMorphemes rnd subsA subsG keyword content mcs))
        (if isPartOfKeyword morpheme keyword then 17 else 5)
      ≤ countExactWord morpheme
          (limitAllMorphemes rnd subsA subsG keyword content (mcs ++ [(morpheme, count)])) := by
  have hfold : limitAllMorphemes rnd subsA subsG keyword content (mcs ++ [(morpheme, count)])
      = limitAllStep rnd subsA subsG keyword
          (limitAllMorphemes rnd subsA subsG keyword content mcs) (morpheme, count) := by
    unfold limitAllMorphemes
    rw [List.foldl_append]
    rfl
  have hstep : limitAllStep rnd subsA subsG keyword
      (limitAllMorphemes rnd subsA subsG keyword content mcs) (morpheme, count)
      = if 20 < count then
          (if isPartOfKeyword morpheme keyword then
            reduceCore 17 rnd (subsA morpheme)
              (limitAllMorphemes rnd subsA subsG keyword content mcs) morpheme (count - 20)
          else
            reduceCore 5 rnd (subsG morpheme)
              (limitAllMorphemes rnd subsA subsG keyword content mcs) morpheme (count - 20))
        else limitAllMorphemes rnd subsA subsG keyword content mcs := rfl
  have hfloor : ∀ (mk : Nat), 1 ≤ mk → ∀ (repls : List Text) (t : Text) (kk : Nat),
      min (countExactWord morpheme t) mk
        ≤ countExactWord morpheme (reduceCore mk rnd repls t morpheme kk) := by
    intro mk hmk repls t kk
    rcases hw with ⟨h1, h2⟩ | ⟨h1, h2, h3⟩
    · exact reduceCore_floor isHangul morpheme (uniformClass_hangul morpheme h1 h2)
        mk hmk rnd repls t kk
    · exact reduceCore_floor isWordChar morpheme (uniformClass_word morpheme h1 h2 h3)
        mk hmk rnd repls t kk
  constructor
  · intro hle
    rw [hfold, hstep, if_neg (by omega)]
  · rw [hfold, hstep]
    by_cases hc : 20 < count
    · rw [if_pos hc]
      cases hkw : isPartOfKeyword morpheme keyword with
      | true =>
        rw [if_pos rfl, if_pos rfl]
        exact hfloor 17 (by omega) (subsA morpheme) _ (count - 20)
      | false =>
        rw [if_neg (by simp), if_neg (by simp)]
        exact hfloor 5 (by omega) (subsG morpheme) _ (count - 20)
    · rw [if_neg hc]
      exact Nat.min_le_left _ _

theorem c10_limit_all_floor_witness :
    (25 ≤ 20 →
      limitAllMorphemes (fun _ => 0) (fun _ => []) (fun _ => []) "전기요금".data
          c3content ([] ++ [("전기".data, 25)])
        = limitAllMorphemes (fun _ => 0) (fun _ => []) (fun _ => []) "전기요금".data
            c3content []) ∧
    min (countExactWord "전기".data
          (limitAllMorphemes (fun _ => 0) (fun _ => []) (fun _ => []) "전기요금".data
            c3content []))
        (if isPartOfKeyword "전기".data "전기요금".data then 17 else 5)
      ≤ countExactWord "전기".data
          (limitAllMorphemes (fun _ => 0) (fun _ => []) (fun _ => []) "전기요금".data
            c3content ([] ++ [("전기".data, 25)])) :=
  c10_limit_all_floor (fun _ => 0) (fun _ => []) (fun _ => []) "전기요금".data
    c3content [] "전기".data 25 (Or.inl ⟨by decide, by decide⟩)

/- ------------------------------------------------------------------ -/
/- `optimize_existing_content_v3` (the orchestrator)                   -/
/- ------------------------------------------------------------------ -/

/-- Injected effects of the orchestrator: the database lookup (`none` models
`BlogContent.DoesNotExist`), the morpheme oracle behind `analyze_content`,
the LLM call of each rewrite round (`Except.error` models a raised exception,
covering the prompt construction and the API call of the round), the forced
optimization stage `enforce_seo_optimization`, the mobile formatter and the
persistence of the updated model (save, delete and re-create of the morpheme
analyses); each effectful stage may raise. -/
structure Env where
  db : Option (Text × Text)
  morphs : Text → List Text
  llm : Nat → Except String Text
  enforce : Text → Text → Except String Text
  fmt : Text → Except String Text
  persist : Except String Unit

/-- State of the best rewrite kept across rounds. -/
abbrev Best := Option (Text × Analysis)

/-- Per-round update: the first analysed result is kept, a later one only
when `_is_seo_result_better` judges it better than the best so far. -/
def updateBest (best : Best) (txt : Text) (analysis : Analysis) : Best :=
  match best with
  | none => some (txt, analysis)
  | some (bt, ba) =>
    if isSeoResultBetter analysis ba then some (txt, analysis) else some (bt, ba)

/-- The rewrite rounds of `optimize_existing_content_v3` (step 1): each round
builds a prompt, calls the API and analyses the response; the result is kept
when it is the first or beats the best so far; the loop stops early when the
round's analysis meets both constraints; a round that raises is skipped (its
`except` arm only logs and sleeps).  Returns the number of rounds run and the
best result. -/
def llmRounds (morphs : Text → List Text) (llm : Nat → Except String Text)
    (keyword : Text) : List Nat → Best → Nat × Best
  | [], best => (0, best)
  | i :: rest, best =>
    match llm i with
    | .error _ =>
      let r := llmRounds morphs llm keyword rest best
      (r.1 + 1, r.2)
    | .ok txt =>
      let analysis := analyzeContent morphs txt keyword
      let best2 := updateBest best txt analysis
      if analysis.is_valid_char_count && analysis.is_valid_morphemes then
        (1, best2)
      else
        let r := llmRounds morphs llm keyword rest best2
        (r.1 + 1, r.2)

/-- The driver runs rounds 0, 1, 2 (`for attempt in range(3)`). -/
def llmLoop (morphs : Text → List Text) (llm : Nat → Except String Text)
    (keyword : Text) : Nat × Best :=
  llmRounds morphs llm keyword [0, 1, 2] none

theorem llmRounds_all_error (morphs : Text → List Text)
    (llm : Nat → Except String Text) (keyword : Text) :
    ∀ (rounds : List Nat) (best : Best),
    (∀ i, i ∈ rounds → ∃ e, llm i = Except.error e) →
    llmRounds morphs llm keyword rounds best = (rounds.length, best) := by
  intro rounds
  induction rounds with
  | nil => intro best _; rfl
  | cons i rest ih =>
    intro best h
    obtain ⟨e, he⟩ := h i (by simp)
    have hrec := ih best (fun j hj => h j (by simp [hj]))
    simp [llmRounds, he, hrec]

theorem llmRounds_le (morphs : Text → List Text)
    (llm : Nat → Except String Text) (keyword : Text) :
    ∀ (rounds : List Nat) (best : Best),
    (llmRounds morphs llm keyword rounds best).1 ≤ rounds.length := by
  intro rounds
  induction rounds with
  | nil => intro best; exact Nat.le_refl 0
  | cons i rest ih =>
    intro best
    cases hll : llm i with
    | error e =>
      have h1 := ih best
      simp only [llmRounds, hll, List.length_cons]
      omega
    | ok txt =>
      have h1 := ih (updateBest best txt (analyzeContent morphs txt keyword))
      simp only [llmRounds, hll, List.length_cons]
      split
      · simp
      · simp only []
        omega

theorem llmRounds_some (morphs : Text → List Text)
    (llm : Nat → Except String Text) (keyword : Text) :
    ∀ (rounds : List Nat) (p : Text × Analysis),
    (llmRounds morphs llm keyword rounds (some p)).2 ≠ none := by
  intro rounds
  induction rounds with
  | nil => intro p h; simp [llmRounds] at h
  | cons i rest ih =>
    intro p
    cases hll : llm i with
    | error e =>
      have h1 := ih p
      simp only [llmRounds, hll]
      exact h1
    | ok txt =>
      simp only [llmRounds, hll]
      have hup : ∃ q, updateBest (some p) txt (analyzeContent morphs txt keyword)
          = some q := by
        obtain ⟨bt, ba⟩ := p
        by_cases hb : isSeoResultBetter (analyzeContent morphs txt keyword) ba = true
        · exact ⟨(txt, analyzeContent morphs txt keyword), by simp [updateBest, hb]⟩
        · exact ⟨(bt, ba), by simp [updateBest, hb]⟩
      obtain ⟨q, hq⟩ := hup
      rw [hq]
      split
      · simp
      · exact ih q

theorem updateBest_some (best : Best) (txt : Text) (analysis : Analysis)
    (t : Text) (a : Analysis) (h : updateBest best txt analysis = some (t, a)) :
    best = some (t, a) ∨ (t = txt ∧ a = analysis) := by
  cases best with
  | none =>
    have h2 : some (txt, analysis) = some (t, a) := h
    simp at h2
    exact Or.inr ⟨h2.1.symm, h2.2.symm⟩
  | some p =>
    obtain ⟨bt, ba⟩ := p
    by_cases hb : isSeoResultBetter analysis ba = true
    · have h2 : some (txt, analysis) = some (t, a) := by
        simpa [updateBest, hb] using h
      simp at h2
      exact Or.inr ⟨h2.1.symm, h2.2.symm⟩
    · have h2 : some (bt, ba) = some (t, a) := by
        simpa [updateBest, hb] using h
      exact Or.inl h2

theorem llmRounds_mem (morphs : Text → List Text)
    (llm : Nat → Except String Text) (keyword : Text) :
    ∀ (rounds : List Nat) (best : Best) (t : Text) (a : Analysis),
    (llmRounds morphs llm keyword rounds best).2 = some (t, a) →
    best = some (t, a)
      ∨ ∃ i, i ∈ rounds ∧ llm i = Except.ok t ∧ a = analyzeContent morphs t keyword := by
  intro rounds
  induction rounds with
  | nil =>
    intro best t a h
    exact Or.inl h
  | cons i rest ih =>
    intro best t a h
    cases hll : llm i with
    | error e =>
      rw [llmRounds, hll] at h
      rcases ih best t a h with h2 | ⟨j, hj, hjo, hja⟩
      · exact Or.inl h2
      · exact Or.inr ⟨j, by simp [hj], hjo, hja⟩
    | ok txt =>
      simp only [llmRounds, hll] at h
      by_cases hv : ((analyzeContent morphs txt keyword).is_valid_char_count
          && (analyzeContent morphs txt keyword).is_valid_morphemes) = true
      · rw [if_pos hv] at h
        rcases updateBest_some best txt _ t a h with h2 | ⟨ht, ha⟩
        · exact Or.inl h2
        · subst ht
          exact Or.inr ⟨i, by simp, hll, ha⟩
      · rw [if_neg hv] at h
        rcases ih (updateBest best txt (analyzeContent morphs txt keyword)) t a h with
          h2 | ⟨j, hj, hjo, hja⟩
        · rcases updateBest_some best txt _ t a h2 with h3 | ⟨ht, ha⟩
          · exact Or.inl h3
          · subst ht
            exact Or.inr ⟨i, by simp, hll, ha⟩
        · exact Or.inr ⟨j, by simp [hj], hjo, hja⟩

/-- Claim C6: the LLM rewrite driver performs at most 3 rounds; when every
round raises, the loop still runs all 3 rounds and finishes with no best
result (an exception terminates neither the loop nor the run); it stops early
at the first round whose analysed result satisfies both the char-count and
the morpheme constraint, retaining that round's result; and any best result
it returns is the analysed response of one of the rounds (the best-so-far
update keeps the comparator-preferred result across rounds). -/
theorem c6_llm_driver (morphs : Text → List Text)
    (llm : Nat → Except String Text) (keyword : Text) :
    (llmLoop morphs llm keyword).1 ≤ 3 ∧
    ((∀ i, i < 3 → ∃ e, llm i = Except.error e) →
      llmLoop morphs llm keyword = (3, none)) ∧
    (∀ txt, llm 0 = Except.ok txt →
      (analyzeContent morphs txt keyword).is_valid_char_count = true →
      (analyzeContent morphs txt keyword).is_valid_morphemes = true →
      llmLoop morphs llm keyword = (1, some (txt, analyzeContent morphs txt keyword))) ∧
    (∀ t a, (llmLoop morphs llm keyword).2 = some (t, a) →
      ∃ i, i < 3 ∧ llm i = Except.ok t ∧ a = analyzeContent morphs t keyword) := by
  refine ⟨llmRounds_le morphs llm keyword [0, 1, 2] none, ?_, ?_, ?_⟩
  · intro h
    have hall : ∀ i, i ∈ [0, 1, 2] → ∃ e, llm i = Except.error e := by
      intro i hi
      apply h
      simp at hi
      rcases hi with h1 | h1 | h1 <;> omega
    exact llmRounds_all_error morphs llm keyword [0, 1, 2] none hall
  · intro txt h0 hv hm
    show llmRounds morphs llm keyword (0 :: [1, 2]) none = _
    simp [llmRounds, h0, hv, hm, updateBest]
  · intro t a h
    rcases llmRounds_mem morphs llm keyword [0, 1, 2] none t a h with h2 | ⟨i, hi, hio, hia⟩
    · exact absurd h2 (by simp)
    · refine ⟨i, ?_, hio, hia⟩
      simp at hi
      rcases hi with h1 | h1 | h1 <;> omega

theorem c6_llm_driver_witness :
    llmLoop (fun _ => []) (fun _ => Except.error "api error") "전기".data = (3, none) :=
  (c6_llm_driver (fun _ => []) (fun _ => Except.error "api error") "전기".data).2.1
    (fun _ _ => ⟨"api error", rfl⟩)

/-- The dictionary `optimize_existing_content_v3` returns: the `success` flag
and, on the success path, the validity flags and character count of the final
analysis (the two failure dictionaries carry only a message, modelled as an
absent payload). -/
structure V3Result where
  success : Bool
  payload : Option (Bool × Bool × Nat)
deriving DecidableEq

/-- Body of the outer `try` of `optimize_existing_content_v3` once the
content row is loaded: run the rewrite rounds; fall back to the original
content when no round produced a non-empty result (Python's
`api_result if api_result else content` is falsy on both `None` and the
empty string); then the forced optimization, the final analysis, the mobile
formatting and the persistence; a raise in any of those aborts the body. -/
def optimizeV3Body (env : Env) (content keyword : Text) : Except String V3Result := do
  let best := (llmLoop env.morphs env.llm keyword).2
  let contentToOptimize :=
    match best with
    | some (t, _) => if t = [] then content else t
    | none => content
  let optimized ← env.enforce contentToOptimize keyword
  let finalAnalysis := analyzeContent env.morphs optimized keyword
  let _ ← env.fmt optimized
  let _ ← env.persist
  pure { success := true
         payload := some (finalAnalysis.is_valid_char_count,
           finalAnalysis.is_valid_morphemes, finalAnalysis.char_count) }

/-- `optimize_existing_content_v3`: the outer `try` catches
`BlogContent.DoesNotExist` and every other exception, each arm returning a
`success = False` dictionary, so the function itself never raises. -/
def optimizeV3 (env : Env) : V3Result :=
  match env.db with
  | none => { success := false, payload := none }
  | some (content, keyword) =>
    match optimizeV3Body env content keyword with
    | .ok r => r
    | .error _ => { success := false, payload := none }

/-- Claim C5: the orchestrator always returns a result dictionary with a
`success` flag and never propagates an exception: a nonexistent content id
(an empty database lookup) returns `success = False` instead of raising; a
raise anywhere in the body is caught and returns `success = False`; and
LLM-call failures in every round are downgraded — the run proceeds with the
original content as its best attempt and still returns `success = True` with
the final analysis when the remaining stages succeed. -/
theorem c5_orchestrator (env : Env) :
    (env.db = none → optimizeV3 env = { success := false, payload := none }) ∧
    (∀ content keyword e, env.db = some (content, keyword) →
      optimizeV3Body env content keyword = Except.error e →
      (optimizeV3 env).success = false) ∧
    (∀ content keyword t m, env.db = some (content, keyword) →
      (∀ i, i < 3 → ∃ er, env.llm i = Except.error er) →
      env.enforce content keyword = Except.ok t →
      env.fmt t = Except.ok m →
      env.persist = Except.ok () →
      (optimizeV3 env).success = true ∧
      (optimizeV3 env).payload
        = some ((analyzeContent env.morphs t keyword).is_valid_char_count,
            (analyzeContent env.morphs t keyword).is_valid_morphemes,
            (analyzeContent env.morphs t keyword).char_count)) := by
  refine ⟨?_, ?_, ?_⟩
  · intro h
    simp [optimizeV3, h]
  · intro content keyword e hdb hbody
    simp [optimizeV3, hdb, hbody]
  · intro content keyword t m hdb herr henf hfmt hper
    have hall : ∀ i, i ∈ [0, 1, 2] → ∃ er, env.llm i = Except.error er := by
      intro i hi
      apply herr
      simp at hi
      rcases hi with h1 | h1 | h1 <;> omega
    have hbest : llmLoop env.morphs env.llm keyword = (3, none) :=
      llmRounds_all_error env.morphs env.llm keyword [0, 1, 2] none hall
    have hbody : optimizeV3Body env content keyword
        = Except.ok ⟨true,
            some ((analyzeContent env.morphs t keyword).is_valid_char_count,
              (analyzeContent env.morphs t keyword).is_valid_morphemes,
              (analyzeContent env.morphs t keyword).char_count)⟩ := by
      simp [optimizeV3Body, hbest, henf, hfmt, hper, bind, Except.bind, pure, Except.pure]
    simp [optimizeV3, hdb, hbody]

/-- Concrete environment: missing API (every round raises), identity
enforcement and formatting, successful persistence. -/
def c5env : Env :=
  { db := some ("본문 내용".data, "전기".data)
    morphs := fun _ => []
    llm := fun _ => Except.error "api error"
    enforce := fun c _ => Except.ok c
    fmt := fun t => Except.ok t
    persist := Except.ok () }

theorem c5_orchestrator_witness :
    (optimizeV3 c5env).success = true ∧
    (optimizeV3 c5env).payload
      = some ((analyzeContent c5env.morphs "본문 내용".data "전기".data).is_valid_char_count,
          (analyzeContent c5env.morphs "본문 내용".data "전기".data).is_valid_morphemes,
          (analyzeContent c5env.morphs "본문 내용".data "전기".data).char_count) :=
  (c5_orchestrator c5env).2.2 "본문 내용".data "전기".data "본문 내용".data "본문 내용".data
    rfl (fun _ _ => ⟨"api error", rfl⟩) rfl rfl rfl
